import Mathlib

/-!
Verification of the Mobilytix acquisition core against its specification.

The Python modules `modules/adb_utils.py` and `modules/parsers.py` are shallowly
embedded below.  External effects (the adb shell transport, the local
filesystem, hash primitives, timestamp formatting, text decoding) are passed in
as explicit function parameters, so every embedded operation is a pure,
executable Lean function.  Strings are modelled by Lean `String` (a list of
characters); bytes are modelled by `Nat` values.
-/

set_option maxRecDepth 20000

namespace Mobilytix

/-! ### Character and string primitives (models of the Python string operations) -/

/-- Model of Python `str.lower` (and `re.IGNORECASE` folding) restricted to
ASCII: uppercase letters are shifted down by 32, all other characters are kept. -/
def lowerChar (c : Char) : Char :=
  if 65 ≤ c.toNat ∧ c.toNat ≤ 90 then Char.ofNat (c.toNat + 32) else c

/-- Lowercase an entire string (Python `s.lower()`). -/
def lowerStr (s : String) : String := ⟨s.data.map lowerChar⟩

/-- Does the character list start with the given literal (exact match)? -/
def litAt : List Char → List Char → Bool
  | [], _ => true
  | _ :: _, [] => false
  | a :: as, b :: bs => a == b && litAt as bs

/-- Does the character list contain the literal as a contiguous substring?
Model of Python `pat in s`. -/
def substrB (pat : List Char) : List Char → Bool
  | [] => litAt pat []
  | c :: cs => litAt pat (c :: cs) || substrB pat cs

/-- String-level substring test (Python `pat in s`). -/
def substrS (pat s : String) : Bool := substrB pat.data s.data

/-! ### Query fallback engine: query_content_provider_with_fallbacks
(adb_utils.py, lines 115-134) -/

/-- The fixed, case-insensitive error markers checked against the lowercased
transport output (adb_utils.py lines 128-131). -/
def errorMarkers : List String :=
  ["error", "exception", "denied", "failed", "unknown",
   "no such", "unable", "cannot", "not found"]

/-- One query attempt for a (uri, projection) pair: a non-empty projection adds
the `--projection` flag (adb_utils.py lines 122-125).  `run` is the shell
transport, taking the full adb argument vector. -/
def queryAttempt (run : List String → String) (uri projection : String) : String :=
  if projection != "" then
    run ["shell", "content", "query", "--uri", uri, "--projection", projection]
  else
    run ["shell", "content", "query", "--uri", uri]

/-- Success classification of one attempt: output non-empty and its lowercase
form contains none of the error markers (adb_utils.py line 128). -/
def isGoodResult (result : String) : Bool :=
  result != "" && !(errorMarkers.any (fun e => substrS e (lowerStr result)))

/-- Inner loop over projection variants for one uri.  Returns the ordered trace
of attempted (uri, projection) pairs, and on the first successful attempt the
raw output together with the projection used. -/
def qcpInner (run : List String → String) (uri : String) :
    List String → List (String × String) × Option (String × String)
  | [] => ([], none)
  | p :: ps =>
    let r := queryAttempt run uri p
    if isGoodResult r then ([(uri, p)], some (r, p))
    else
      let rest := qcpInner run uri ps
      ((uri, p) :: rest.1, rest.2)

/-- Outer loop over uri variants (adb_utils.py lines 120-132). -/
def qcpOuter (run : List String → String) (projs : List String) :
    List String → List (String × String) × Option (String × String × String)
  | [] => ([], none)
  | u :: us =>
    match qcpInner run u projs with
    | (t, some rp) => (t, some (rp.1, u, rp.2))
    | (t, none) =>
      let rest := qcpOuter run projs us
      (t ++ rest.1, rest.2)

/-- Result record of one logical query, as returned by
query_content_provider_with_fallbacks. -/
structure QueryResult where
  success : Bool
  raw_text : String
  uri_used : Option String
  projection_used : Option String
deriving DecidableEq

/-- query_content_provider_with_fallbacks (adb_utils.py lines 115-134): iterate
uri variants (outer loop) and projection variants (inner loop); return the
first successful attempt immediately, otherwise a synthesized failure message
naming the label. -/
def query_content_provider_with_fallbacks (run : List String → String)
    (uri_variants projection_variants : List String) (label : String) : QueryResult :=
  match qcpOuter run projection_variants uri_variants with
  | (_, some rup) => ⟨true, rup.1, some rup.2.1, some rup.2.2⟩
  | (_, none) => ⟨false, "All " ++ label ++ " query attempts failed.", none, none⟩

/-- The ordered list of (uri, projection) combinations actually attempted. -/
def qcpTrace (run : List String → String)
    (uri_variants projection_variants : List String) : List (String × String) :=
  (qcpOuter run projection_variants uri_variants).1

/-- Cartesian product of uri and projection variants, uri as the outer loop:
the order in which the engine is specified to try combinations. -/
def combosOf (uris projs : List String) : List (String × String) :=
  match uris with
  | [] => []
  | u :: us => projs.map (fun p => (u, p)) ++ combosOf us projs

/-- Classification of a (uri, projection) pair under a given transport. -/
def goodPair (run : List String → String) (up : String × String) : Bool :=
  isGoodResult (queryAttempt run up.1 up.2)

/-- Stub transport for the concrete fallback-ordering scenario: every attempt
fails with a "permission denied" diagnostic except (u2, p1). -/
def stubRun (args : List String) : String :=
  if args = ["shell", "content", "query", "--uri", "u2", "--projection", "p1"] then
    "Row: 0 data=1"
  else
    "permission denied"

/-! ### More string primitives used by the filesystem layer and the parsers -/

/-- One-pass, left-to-right replacement of "//" by "/" in a character list:
model of Python `s.replace("//", "/")` (non-overlapping, single scan). -/
def collapseSS : List Char → List Char
  | [] => []
  | [c] => [c]
  | c1 :: c2 :: rest =>
    if c1 = '/' ∧ c2 = '/' then '/' :: collapseSS rest
    else c1 :: collapseSS (c2 :: rest)

/-- Python `s.rstrip("/")`: remove every trailing slash. -/
def rstripSlash (s : String) : String :=
  ⟨(s.data.reverse.dropWhile (fun c => c == '/')).reverse⟩

/-- Python `s.lstrip("/")`: remove every leading slash. -/
def lstripSlash (s : String) : String := ⟨s.data.dropWhile (fun c => c == '/')⟩

/-- Python `s.startswith(pre)`. -/
def pyStartsWith (pre s : String) : Bool := litAt pre.data s.data

/-- The line-boundary characters recognized by Python `str.splitlines`. -/
def isLineBreak (c : Char) : Bool :=
  c == '\n' || c == '\r' || c == '\x0b' || c == '\x0c' ||
  c == '\x1c' || c == '\x1d' || c == '\x1e' || c == '\x85' ||
  c == '\u2028' || c == '\u2029'

/-- Model of Python `str.splitlines`: split at line boundaries, treating
"\r\n" as a single boundary, with no trailing empty line for a terminal
boundary. -/
def pySplitLines : List Char → List (List Char)
  | [] => []
  | [c] => if isLineBreak c then [[]] else [[c]]
  | c1 :: c2 :: rest =>
    if c1 = '\r' ∧ c2 = '\n' then [] :: pySplitLines rest
    else if isLineBreak c1 then [] :: pySplitLines (c2 :: rest)
    else
      match pySplitLines (c2 :: rest) with
      | [] => [[c1]]
      | l :: ls => (c1 :: l) :: ls

/-- Whitespace characters for Python `str.strip` (ASCII whitespace plus the
common one-byte Unicode whitespace; exotic Unicode space characters are not
modelled). -/
def isPySpace (c : Char) : Bool :=
  c == ' ' || c == '\t' || c == '\n' || c == '\r' || c == '\x0b' || c == '\x0c' ||
  c == '\x1c' || c == '\x1d' || c == '\x1e' || c == '\x1f' || c == '\x85' || c == '\xa0'

/-- Python `str.strip()` on a character list. -/
def pyStripChars (cs : List Char) : List Char :=
  ((cs.dropWhile isPySpace).reverse.dropWhile isPySpace).reverse

/-- Python `str.strip()`. -/
def pyStrip (s : String) : String := ⟨pyStripChars s.data⟩

/-! ### Filesystem discovery engine: brute_scan_fs (adb_utils.py, lines 492-535)

The remote shell is modelled by two oracles: `lsOut path` is the raw text that
`run_adb ["shell", "ls", "-1", path]` returns, and `dirOut path` is the raw
text returned by the directory-test command
`run_adb ["shell", "[ -d path ] && echo DIR || echo FILE"]`. -/

/-- is_directory (adb_utils.py lines 492-494): the probe output contains
"DIR". -/
def is_directory (dirOut : String → String) (path : String) : Bool :=
  substrS "DIR" (dirOut path)

/-- list_directory (adb_utils.py lines 496-500): empty output, "No such" or a
lowercased "denied" yield no entries; otherwise the stripped non-empty lines. -/
def list_directory (lsOut : String → String) (path : String) : List String :=
  let out := lsOut path
  if out == "" || substrS "No such" out || substrS "denied" (lowerStr out) then []
  else ((pySplitLines out.data).map (fun l => (⟨pyStripChars l⟩ : String))).filter
    (fun s => s != "")

/-- Joining a directory path with a child name:
`f"{current}/{name}".replace("//", "/")` (adb_utils.py line 522). -/
def joinPath (current name : String) : String :=
  ⟨collapseSS (current.data ++ '/' :: name.data)⟩

/-- The special-cased child names of brute_scan_fs (line 523): symlink-like
listing artifacts and hidden (dot-led) entries. -/
def isDotArrow (name : String) : Bool :=
  substrS " -> " name || pyStartsWith "." name

/-- A discovered remote path together with its directory classification. -/
structure DiscoveredPath where
  path : String
  is_dir : Bool
deriving DecidableEq

/-- The body of brute_scan_fs's `for name in entries` loop (lines 521-533),
acting on one listing: returns the records appended to `discovered` (in entry
order) and the new stack top segment (pushed directories, last push first,
matching Python append-to-end / pop-from-end with a head-is-top stack). -/
def processChildren (dirOut : String → String) (current : String) :
    List String → List DiscoveredPath × List String
  | [] => ([], [])
  | name :: restNames =>
    let full := joinPath current name
    let rest := processChildren dirOut current restNames
    if isDotArrow name then
      if is_directory dirOut full then (⟨full, true⟩ :: rest.1, rest.2 ++ [full])
      else (rest.1, rest.2)
    else
      if is_directory dirOut full then (⟨full, true⟩ :: rest.1, rest.2 ++ [full])
      else (⟨full, false⟩ :: rest.1, rest.2)

/-- The while-loop of brute_scan_fs (lines 511-533), with explicit fuel (the
loop has no structural termination measure; termination under a finite tree is
the subject of claim C2).  The stack's head is its top.  Returns the discovered
list together with the visited list (paths in order of processing, most recent
first); `none` means the fuel ran out. -/
def bruteScanAux (lsOut dirOut : String → String) :
    Nat → List String → List String → List DiscoveredPath →
    Option (List DiscoveredPath × List String)
  | 0, _, _, _ => none
  | _ + 1, [], visited, discovered => some (discovered, visited)
  | fuel + 1, current :: rest, visited, discovered =>
    if current ∈ visited then bruteScanAux lsOut dirOut fuel rest visited discovered
    else
      let pc := processChildren dirOut current (list_directory lsOut current)
      bruteScanAux lsOut dirOut fuel (pc.2 ++ rest) (current :: visited)
        (discovered ++ pc.1)

/-- brute_scan_fs (adb_utils.py lines 502-535): seed the stack with the
slash-stripped root and run the work loop. -/
def brute_scan_fs (lsOut dirOut : String → String) (fuel : Nat) (root : String) :
    Option (List DiscoveredPath) :=
  (bruteScanAux lsOut dirOut fuel [rstripSlash root] [] []).map (fun r => r.1)

/-- The largest direct-listing size over a path universe, used to bound the
stack growth of one loop iteration. -/
def maxChildCount (lsOut : String → String) (U : List String) : Nat :=
  U.foldr (fun p m => max (list_directory lsOut p).length m) 0

/-- Fuel sufficient for a scan over a finite closed path universe U. -/
def scanFuel (lsOut : String → String) (U : List String) : Nat :=
  2 + (maxChildCount lsOut U + 1) * U.length

/-- The number of universe paths not yet in the visited list. -/
def remainingCount (U visited : List String) : Nat :=
  (U.filter (fun p => decide (p ∉ visited))).length

/-- A character list contains two consecutive slashes. -/
def hasDS : List Char → Bool
  | [] => false
  | [_] => false
  | a :: b :: rest => (a == '/' && b == '/') || hasDS (b :: rest)

/-- Invariant of every path reached by a scan started at the slash-stripped
root `rootR`, provided the listing oracle serves slash-free names: the path
extends `rootR`, contains no double slash, and does not end in a slash. -/
def goodUnder (rootR q : String) : Prop :=
  rootR.data <+: q.data ∧ hasDS q.data = false ∧ q.data.getLast? ≠ some '/'

/-- The origin of a recorded discovery entry: it arises from a listed child
`n` of a processed directory `p`, its recorded classification equals the
directory-probe answer for the joined path, and a recorded file leaf never has
a hidden or symlink-like name. -/
def childOriginOf (lsOut dirOut : String → String) (p : String)
    (d : DiscoveredPath) : Prop :=
  ∃ n ∈ list_directory lsOut p,
    d = ⟨joinPath p n, is_directory dirOut (joinPath p n)⟩ ∧
    (is_directory dirOut (joinPath p n) = false → isDotArrow n = false)

/-- Reference version of the child-processing loop stated from the spec's
words for the amended claim C9: probe every child with the directory test;
record and push directories regardless of name; record non-directories as file
leaves only when the name is neither hidden (dot-led) nor a symlink-like
artifact, and omit them otherwise. -/
def processChildrenSpec (dirOut : String → String) (current : String) :
    List String → List DiscoveredPath × List String
  | [] => ([], [])
  | name :: restNames =>
    let full := joinPath current name
    let rest := processChildrenSpec dirOut current restNames
    if is_directory dirOut full then (⟨full, true⟩ :: rest.1, rest.2 ++ [full])
    else if isDotArrow name then (rest.1, rest.2)
    else (⟨full, false⟩ :: rest.1, rest.2)

/-- Two-level concrete tree whose only child is a hidden non-directory. -/
def cxDotLs : String → String := fun p => if p = "/r" then ".h" else ""

/-- Two-level concrete tree whose only child is an ordinary non-directory. -/
def cxOrdLs : String → String := fun p => if p = "/r" then "h" else ""

/-- Directory probe answering FILE for every path. -/
def cxFileDir : String → String := fun _ => "FILE"

/-- Listing oracle whose single listing line is a bare slash, turning the
joined child path back into the root "/". -/
def cxRootLs : String → String := fun p => if p = "" then "/" else ""

/-- Concrete listing with a duplicated child name (the same path pushed
twice). -/
def wLs : String → String := fun p => if p = "/r" then "d\nd" else ""

/-- Directory probe for the duplicated-child tree. -/
def wDir : String → String := fun p => if p = "/r/d" then "DIR" else "FILE"

/-- Path universe of the duplicated-child tree. -/
def wU : List String := ["/r", "/r/d"]

/-! ### Extraction and manifest builder: brute_extract_folder
(adb_utils.py, lines 540-590) -/

/-- Hash triple of a manifest entry; a `none` digest models Python `None`. -/
structure Hashes where
  md5 : Option String
  sha1 : Option String
  sha256 : Option String
deriving DecidableEq

/-- One manifest entry (adb_utils.py lines 564-571).  `mtime` (a float in the
source) is modelled as a natural number of seconds; `size` is a byte count. -/
structure ManifestEntry where
  remote_path : String
  local_path : String
  size : Nat
  mtime : Nat
  hashes : Hashes
  adb_result : String
deriving DecidableEq

/-- compute_hashes (adb_utils.py lines 578-590).  The local filesystem is
modelled by `localFs : path -> Option bytes` (`none` = file absent); opening an
absent file raises, which the source's `except` turns into the all-`None`
triple.  The three digest functions are abstract parameters. -/
def compute_hashes (localFs : String → Option (List Nat))
    (md5f sha1f sha256f : List Nat → String) (path : String) : Hashes :=
  match localFs path with
  | some bytes => ⟨some (md5f bytes), some (sha1f bytes), some (sha256f bytes)⟩
  | none => ⟨none, none, none⟩

/-- POSIX `os.path.join` for a relative second component. -/
def osPathJoin (a b : String) : String :=
  if a = "" then b
  else if a.data.getLast? = some '/' then a ++ b
  else a ++ "/" ++ b

/-- One iteration of brute_extract_folder's loop for a non-directory entry
(adb_utils.py lines 555-571): derive the mirrored local path, record the pull
output, then inspect the local filesystem for size/mtime/hashes.
`pullOut remote` models the text returned by `run_adb ["pull", remote, local]`;
`mtimeFs` models `os.path.getmtime`.  `os.path.abspath` and `os.makedirs` do
not affect the recorded fields and are modelled as the identity / a no-op. -/
def extractEntry (localFs : String → Option (List Nat)) (mtimeFs : String → Nat)
    (md5f sha1f sha256f : List Nat → String) (pullOut : String → String)
    (dest_root remote : String) : ManifestEntry :=
  let loc := osPathJoin dest_root (lstripSlash remote)
  { remote_path := remote
    local_path := loc
    size := match localFs loc with
      | some bytes => bytes.length
      | none => 0
    mtime := match localFs loc with
      | some _ => mtimeFs loc
      | none => 0
    hashes := match localFs loc with
      | some _ => compute_hashes localFs md5f sha1f sha256f loc
      | none => ⟨none, none, none⟩
    adb_result := pullOut remote }

/-- The `for entry in fs_items` loop of brute_extract_folder (lines 552-571):
directories are skipped, each non-directory discovered path yields exactly one
manifest entry, in discovery order. -/
def extractFromItems (localFs : String → Option (List Nat)) (mtimeFs : String → Nat)
    (md5f sha1f sha256f : List Nat → String) (pullOut : String → String)
    (dest_root : String) : List DiscoveredPath → List ManifestEntry
  | [] => []
  | e :: rest =>
    if e.is_dir then
      extractFromItems localFs mtimeFs md5f sha1f sha256f pullOut dest_root rest
    else
      extractEntry localFs mtimeFs md5f sha1f sha256f pullOut dest_root e.path ::
        extractFromItems localFs mtimeFs md5f sha1f sha256f pullOut dest_root rest

/-- brute_extract_folder (adb_utils.py lines 540-573): scan the remote tree,
then pull every non-directory leaf and record one manifest entry each. -/
def brute_extract_folder (lsOut dirOut : String → String)
    (localFs : String → Option (List Nat)) (mtimeFs : String → Nat)
    (md5f sha1f sha256f : List Nat → String) (pullOut : String → String)
    (fuel : Nat) (remote_root dest_root : String) : Option (List ManifestEntry) :=
  (brute_scan_fs lsOut dirOut fuel (rstripSlash remote_root)).map
    (extractFromItems localFs mtimeFs md5f sha1f sha256f pullOut dest_root)

/-! ### Archive serializer: archive_to_bin (adb_utils.py, lines 746-763) -/

/-- The fixed 8-byte magic constant b"MOBIN001". -/
def MAGIC : List Nat := [77, 79, 66, 73, 78, 48, 48, 49]

/-- Little-endian byte encoding of n in k bytes. -/
def leBytes : Nat → Nat → List Nat
  | 0, _ => []
  | k + 1, n => n % 256 :: leBytes k (n / 256)

/-- struct.pack("<Q", n): 8-byte little-endian encoding. -/
def u64le (n : Nat) : List Nat := leBytes 8 n

/-- Little-endian decoding of a byte list. -/
def leDecode : List Nat → Nat
  | [] => 0
  | b :: bs => b + 256 * leDecode bs

/-- The payload section: for every entry whose local_path is truthy and whose
local file exists, that file's bytes, in manifest order, no separators
(adb_utils.py lines 755-760; the chunked read concatenates to the full file). -/
def payloadBytes (localFs : String → Option (List Nat)) : List ManifestEntry → List Nat
  | [] => []
  | e :: rest =>
    (if e.local_path != "" then
      match localFs e.local_path with
      | some bytes => bytes
      | none => []
     else []) ++ payloadBytes localFs rest

/-- archive_to_bin (adb_utils.py lines 748-763), as the byte string written to
the output file.  The JSON serialization of the wrapped manifest
(`json.dumps({"generated": ..., "entries": manifest}).encode("utf-8")`) is
passed in as the opaque byte string `manifestJson`, since only its length
enters the container framing; write failures are outside this pure model. -/
def archive_to_bin (localFs : String → Option (List Nat)) (manifestJson : List Nat)
    (manifest : List ManifestEntry) : List Nat :=
  MAGIC ++ u64le manifestJson.length ++ manifestJson ++ payloadBytes localFs manifest

/-- Slicing a payload by a list of recorded sizes, in manifest order: the
reader side of the round-trip property. -/
def sliceBySizes : List Nat → List Nat → List (List Nat)
  | _, [] => []
  | payload, s :: ss => payload.take s :: sliceBySizes (payload.drop s) ss

/-! ### Shell transport: run_adb (adb_utils.py, lines 33-64) -/

/-- The four ways the spawned adb process can end: normal completion with raw
stdout/stderr byte streams, subprocess.TimeoutExpired, FileNotFoundError, or
another exception with a message. -/
inductive AdbOutcome where
  | completed (stdoutBytes stderrBytes : List Nat)
  | timedOut
  | toolMissing
  | failed (msg : String)

/-- Stream decoding of run_adb (lines 47-55): utf-8 first, on decode failure
latin-1 with replacement (which never fails), then strip.  The two decoders
are abstract parameters; `decodeLatin1` is total. -/
def decodeStream (decodeUtf8 : List Nat → Option String)
    (decodeLatin1 : List Nat → String) (bytes : List Nat) : String :=
  match decodeUtf8 bytes with
  | some s => pyStrip s
  | none => pyStrip (decodeLatin1 bytes)

/-- run_adb (adb_utils.py lines 33-64): on completion return stripped stdout
if non-empty else stripped stderr; the three exception branches return fixed
diagnostic strings. -/
def run_adb (decodeUtf8 : List Nat → Option String)
    (decodeLatin1 : List Nat → String) (outcome : AdbOutcome) : String :=
  match outcome with
  | .completed o e =>
    let out := decodeStream decodeUtf8 decodeLatin1 o
    let err := decodeStream decodeUtf8 decodeLatin1 e
    if out != "" then out else err
  | .timedOut => "adb command timed out."
  | .toolMissing => "adb not found."
  | .failed msg => "adb error: " ++ msg

/-- Listing with two ordinary file children, for the extraction witness. -/
def wLs4 : String → String := fun p => if p = "/r" then "a\nb" else ""

/-- Local filesystem after the pulls: the first mirrored file exists, the
second does not. -/
def wFs4 : String → Option (List Nat) := fun p => if p = "dst/r/a" then some [1, 2] else none

/-- Constant digest function for the extraction witness. -/
def wHash : List Nat → String := fun _ => "h"

/-- Constant mtime oracle for the extraction witness. -/
def wMt : String → Nat := fun _ => 7

/-- Constant pull transcript for the extraction witness. -/
def wPull : String → String := fun _ => "pulled"

/-! ### Multi-strategy parsers (modules/parsers.py)

The regular expressions of the source are hand-translated into explicit
matching functions with Python `re` semantics for the exact patterns used:
non-greedy captures take the shortest prefix from which the rest of the
pattern matches, greedy `\d+`/`\s*`/`\w+`/character-class runs take maximal
runs (backtracking cannot shorten them because the following literal is never
a member of the run class), `re.search` yields the leftmost match, and
`re.finditer` resumes after the end of the previous match.  `\d` and `\w` are
modelled over ASCII; `.` without DOTALL excludes the newline.  Timestamp
formatting (`datetime.fromtimestamp(..).strftime(..)`) is the abstract
parameter `fmt`. -/

/-- One parsed SMS record (parsers.py lines 50-55). -/
structure SmsRecord where
  address : String
  date_epoch_ms : String
  date : String
  body : String
deriving DecidableEq

/-- One parsed contact record (parsers.py lines 164-167). -/
structure ContactRecord where
  name : String
  number : String
deriving DecidableEq

/-- One parsed call record (parsers.py lines 202-208). -/
structure CallRecord where
  name : String
  number : String
  duration_seconds : String
  date_epoch_ms : String
  date : String
deriving DecidableEq

/-- Numeric value of an ASCII digit run. -/
def digitsToNat (ds : List Char) : Nat :=
  ds.foldl (fun acc c => acc * 10 + (c.toNat - 48)) 0

/-- Model of Python `int(s)` for a string: optional surrounding whitespace,
optional sign, then a non-empty digit run (underscore grouping is not
modelled). -/
def pyParseInt (s : String) : Option Int :=
  let cs := pyStripChars s.data
  let sd : Int × List Char :=
    match cs with
    | '+' :: rest => (1, rest)
    | '-' :: rest => (-1, rest)
    | _ => (1, cs)
  if !sd.2.isEmpty && sd.2.all Char.isDigit then
    some (sd.1 * (digitsToNat sd.2 : Int))
  else none

/-- epoch_ms_to_str (adb_utils.py lines 19-28): parse the integer, divide
millisecond-scale values by 1000, format with the abstract `fmt`; on a parse
failure return the original string (the `except` branch's `str(ms)`). -/
def epoch_ms_to_str (fmt : Int → String) (ms : String) : String :=
  match pyParseInt ms with
  | some n => if n > 10 ^ 12 then fmt (n / 1000) else fmt n
  | none => ms

/-- Python regex `\w` over ASCII. -/
def wordChar (c : Char) : Bool := c.isAlpha || c.isDigit || c == '_'

/-- The character class `[\+\d\s\(\)-]` of the contacts pattern. -/
def classChar (c : Char) : Bool :=
  c == '+' || c.isDigit || isPySpace c || c == '(' || c == ')' || c == '-'

/-- Case-insensitive literal match at the head (re.IGNORECASE, ASCII). -/
def ciAt : List Char → List Char → Bool
  | [], _ => true
  | _ :: _, [] => false
  | a :: as, b :: bs => lowerChar a == lowerChar b && ciAt as bs

/-- First occurrence of a literal; returns the remainder after it (the
leftmost position from which `re.search` can continue). -/
def findLit (lit : List Char) : List Char → Option (List Char)
  | [] => if litAt lit [] then some [] else none
  | c :: cs =>
    if litAt lit (c :: cs) then some ((c :: cs).drop lit.length)
    else findLit lit cs

/-- Non-greedy capture up to the first position where `stop` matches, or to
the end of the text (the `(?:TERM|$)` idiom). -/
def captureUntil (stop : List Char → Bool) (acc : List Char) : List Char → List Char
  | [] => acc.reverse
  | c :: cs => if stop (c :: cs) then acc.reverse else captureUntil stop (c :: acc) cs

/-- As captureUntil, also returning the remainder from the stop position. -/
def captureUntilRest (stop : List Char → Bool) (acc : List Char) :
    List Char → List Char × List Char
  | [] => (acc.reverse, [])
  | c :: cs =>
    if stop (c :: cs) then (acc.reverse, c :: cs)
    else captureUntilRest stop (c :: acc) cs

/-- Backtracking search for the shortest capture (DOTALL `.*?`): extend the
capture one character at a time until the rest of the pattern (`tail`)
matches. -/
def findSplit (tail : List Char → Option α) (acc : List Char) :
    List Char → Option (List Char × α)
  | [] =>
    match tail [] with
    | some r => some (acc.reverse, r)
    | none => none
  | c :: cs2 =>
    match tail (c :: cs2) with
    | some r => some (acc.reverse, r)
    | none => findSplit tail (c :: acc) cs2

/-- As findSplit, but the capture may not cross a newline (`.*?` without
DOTALL). -/
def findSplitNoNl (tail : List Char → Option α) (acc : List Char) :
    List Char → Option (List Char × α)
  | [] =>
    match tail [] with
    | some r => some (acc.reverse, r)
    | none => none
  | c :: cs2 =>
    match tail (c :: cs2) with
    | some r => some (acc.reverse, r)
    | none => if c = '\n' then none else findSplitNoNl tail (c :: acc) cs2

/-- The `(?:,|$)` capture terminator: a comma right here. -/
def commaStop : List Char → Bool
  | [] => false
  | c :: _ => c == ','

/-- The `(?:,\s*LIT|$)` capture terminator used by the single-line SMS
pattern (`,\s*type=`). -/
def commaSpacesLit (lit : List Char) : List Char → Bool
  | [] => false
  | c :: cs => c == ',' && litAt lit (cs.dropWhile isPySpace)

/-! SMS strategy 1 (parsers.py lines 40-55): the DOTALL pattern
`address=(?P<address>.*?),\s*date=(?P<date>\d+),\s*body=(?P<body>.*?)(?=(?:\nRow)|\Z)`
iterated with finditer. -/

/-- The `,\s*LIT` link of the rigid tails: a comma, optional whitespace, the
literal; returns the remainder after dropping `n` further characters (the
literal itself). -/
def commaLitDrop (lit : List Char) (n : Nat) : List Char → Option (List Char)
  | [] => none
  | c :: cs =>
    if c = ',' then
      if litAt lit (cs.dropWhile isPySpace) then some ((cs.dropWhile isPySpace).drop n)
      else none
    else none

/-- The `,\s*KEY=` link of the IGNORECASE call patterns: a comma, optional
whitespace, the key case-insensitively, '='; returns the remainder after the
'='. -/
def commaCiKeyDrop (key : List Char) : List Char → Option (List Char)
  | [] => none
  | c :: cs =>
    if c = ',' then
      if ciAt key (cs.dropWhile isPySpace) &&
          litAt ['='] ((cs.dropWhile isPySpace).drop key.length) then
        some (((cs.dropWhile isPySpace).drop key.length).drop 1)
      else none
    else none

/-- The rigid part after the address capture: `,\s*date=(\d+),\s*body=`;
returns the date digits and the remainder after `body=`. -/
def smsTailMatch (cs : List Char) : Option (List Char × List Char) :=
  match commaLitDrop "date=".data 5 cs with
  | none => none
  | some cs3 =>
    let ds := cs3.takeWhile Char.isDigit
    if !ds.isEmpty then
      (commaLitDrop "body=".data 5 (cs3.drop ds.length)).map (fun r => (ds, r))
    else none

/-- The body capture with its lookahead `(?=(?:\nRow)|\Z)`: shortest body up
to the first "\nRow", else to the end; the remainder is not consumed. -/
def splitAtNlRow (acc : List Char) : List Char → List Char × List Char
  | [] => (acc.reverse, [])
  | c :: cs =>
    if litAt "\nRow".data (c :: cs) then (acc.reverse, c :: cs)
    else splitAtNlRow (c :: acc) cs

/-- finditer driver of SMS strategy 1; safe_group strips every capture, and a
record is kept only when the stripped address or body is non-empty
(parsers.py line 49). -/
def smsScan1 (fmt : Int → String) : Nat → List Char → List SmsRecord
  | 0, _ => []
  | _ + 1, [] => []
  | fuel + 1, cs =>
    if litAt "address=".data cs then
      match findSplit smsTailMatch [] (cs.drop 8) with
      | some (addr, ds, rest) =>
        let bodyRest := splitAtNlRow [] rest
        let a : String := ⟨pyStripChars addr⟩
        let d : String := ⟨pyStripChars ds⟩
        let b : String := ⟨pyStripChars bodyRest.1⟩
        if a != "" || b != "" then
          ⟨a, d, if d != "" then epoch_ms_to_str fmt d else "Unknown", b⟩ ::
            smsScan1 fmt fuel bodyRest.2
        else smsScan1 fmt fuel bodyRest.2
      | none => smsScan1 fmt fuel (cs.drop 1)
    else smsScan1 fmt fuel (cs.drop 1)

/-! SMS strategies 2 and 3 (parsers.py lines 62-111): single-line patterns of
the shape `K1(.*?),\s*K2(\d+).*?K3(.*?)TERM`, searched per line. -/

/-- The `,\s*K2(\d+)` part after the first capture (K2 carries its '='). -/
def slTailMatch (k2 : List Char) : List Char → Option (List Char × List Char)
  | [] => none
  | c :: cs1 =>
    if c = ',' then
      let cs2 := cs1.dropWhile isPySpace
      if litAt k2 cs2 then
        let cs3 := cs2.drop k2.length
        let ds := cs3.takeWhile Char.isDigit
        if !ds.isEmpty then some (ds, cs3.drop ds.length) else none
      else none
    else none

/-- After the date digits: the non-greedy gap `.*?K3` (first K3 occurrence),
then the body capture up to TERM or end of line.  If K3 does not occur after
the digits it occurs after no later digit run either, so failing here is
failing the whole line. -/
def slAfterK1 (k2 k3 : List Char) (stop : List Char → Bool) (cs : List Char) :
    Option (List Char × List Char × List Char) :=
  match findSplit (slTailMatch k2) [] cs with
  | some (addr, ds, rest) =>
    match findLit k3 rest with
    | some afterK3 => some (addr, ds, captureUntil stop [] afterK3)
    | none => none
  | none => none

/-- re.search of the whole single-line pattern: leftmost K1 occurrence (a
failure of the rigid tail after it cannot be repaired by a later K1
occurrence, as the candidate positions only shrink). -/
def slSearch (k1 k2 k3 : List Char) (stop : List Char → Bool) (line : List Char) :
    Option (List Char × List Char × List Char) :=
  match findLit k1 line with
  | some afterK1 => slAfterK1 k2 k3 stop afterK1
  | none => none

/-- One line of an SMS single-line strategy: on a match, one record from the
stripped captures (appended unconditionally, parsers.py lines 66-77 and
92-108). -/
def smsPatLine (fmt : Int → String) (k1 k2 k3 : List Char) (stop : List Char → Bool)
    (line : List Char) : List SmsRecord :=
  match slSearch k1 k2 k3 stop line with
  | some (addr, ds, body) =>
    let a : String := ⟨pyStripChars addr⟩
    let d : String := ⟨pyStripChars ds⟩
    let b : String := ⟨pyStripChars body⟩
    [⟨a, d, if d != "" then epoch_ms_to_str fmt d else "Unknown", b⟩]
  | none => []

/-- SMS strategy 2 on one line, guarded by the three substring tests of
parsers.py line 63. -/
def smsStrat2Line (fmt : Int → String) (line : List Char) : List SmsRecord :=
  if substrB "address=".data line && substrB "date=".data line &&
      substrB "body=".data line then
    smsPatLine fmt "address=".data "date=".data "body=".data
      (commaSpacesLit "type=".data) line
  else []

/-- Concatenation of a per-line strategy over all lines. -/
def linesConcat (f : List Char → List α) : List (List Char) → List α
  | [] => []
  | l :: ls => f l ++ linesConcat f ls

/-- SMS strategy 3 (parsers.py lines 86-111): three alternate column-name
patterns, each scanned over every line, returning at the first pattern that
produced records. -/
def smsStrat3 (fmt : Int → String) (lines : List (List Char)) : List SmsRecord :=
  let p1 := linesConcat
    (smsPatLine fmt "phone_number=".data "date=".data "message=".data commaStop) lines
  if !p1.isEmpty then p1 else
  let p2 := linesConcat
    (smsPatLine fmt "sender=".data "timestamp=".data "text=".data commaStop) lines
  if !p2.isEmpty then p2 else
  linesConcat
    (smsPatLine fmt "number=".data "date_sent=".data "body=".data commaStop) lines

/-! Generic key=value extraction, strategy 4 of the SMS and call parsers
(parsers.py lines 115-142 and 264-293): `re.findall(r'(\w+)=(.*?)(?:,\s*\w+=|$)', line)`.
The terminator is a consuming group, so the key it swallows starts no pair of
its own — findall resumes after it. -/

/-- Does `,\s*\w+=` match here? -/
def commaKeyStop : List Char → Bool
  | [] => false
  | c :: cs =>
    c == ',' &&
      (let cs2 := cs.dropWhile isPySpace
       let w := cs2.takeWhile wordChar
       !w.isEmpty && litAt ['='] (cs2.drop w.length))

/-- Resume position after a matched `,\s*\w+=` terminator. -/
def consumeCommaKey : List Char → List Char
  | [] => []
  | c :: cs =>
    if c = ',' then
      let cs2 := cs.dropWhile isPySpace
      let w := cs2.takeWhile wordChar
      (cs2.drop w.length).drop 1
    else c :: cs

/-- findall of the pair pattern: at each position, a maximal `\w+` run
followed by '=' starts a pair whose value runs to the first `,\s*\w+=` or to
the end. -/
def pyFindPairs : Nat → List Char → List (List Char × List Char)
  | 0, _ => []
  | _ + 1, [] => []
  | fuel + 1, cs =>
    let w := cs.takeWhile wordChar
    if !w.isEmpty && litAt ['='] (cs.drop w.length) then
      let vr := captureUntilRest commaKeyStop [] ((cs.drop w.length).drop 1)
      (w, vr.1) ::
        pyFindPairs fuel (if vr.2.isEmpty then [] else consumeCommaKey vr.2)
    else pyFindPairs fuel (cs.drop 1)

/-- Dict construction semantics: later pairs overwrite earlier ones. -/
def dictGet (pairs : List (String × String)) (key : String) : Option String :=
  (pairs.reverse.find? (fun kv => kv.1 == key)).map (fun kv => kv.2)

/-- Python `a or b` for an optional string a: b unless a is a non-empty
string. -/
def pyOr (a : Option String) (b : String) : String :=
  match a with
  | some s => if s != "" then s else b
  | none => b

/-- SMS strategy 4 on one line (parsers.py lines 115-142): skip blank and
"Row:"-led lines, build the pair dict with stripped values, alias the
address/body/date fields, keep the record if address or body is non-empty. -/
def smsStrat4Line (fmt : Int → String) (line : List Char) : List SmsRecord :=
  if (pyStripChars line).isEmpty || litAt "Row:".data line then []
  else
    let pairs := (pyFindPairs (line.length + 1) line).map
      (fun kv => ((⟨kv.1⟩ : String), (⟨pyStripChars kv.2⟩ : String)))
    let addr := pyOr (dictGet pairs "address") (pyOr (dictGet pairs "phone_number")
      (pyOr (dictGet pairs "sender") (pyOr (dictGet pairs "number") "")))
    let body := pyOr (dictGet pairs "body") (pyOr (dictGet pairs "message")
      (pyOr (dictGet pairs "text") ""))
    let dms := pyOr (dictGet pairs "date") (pyOr (dictGet pairs "timestamp")
      (pyOr (dictGet pairs "date_sent") ""))
    if addr != "" || body != "" then
      [⟨addr, dms, if dms != "" then epoch_ms_to_str fmt dms else "Unknown", body⟩]
    else []

/-- Python `"\n".join`. -/
def joinNL : List (List Char) → List Char
  | [] => []
  | l :: ls =>
    match ls with
    | [] => l
    | _ :: _ => l ++ '\n' :: joinNL ls

/-- The comment stripping shared by the SMS and call parsers (parsers.py
lines 31-32 and 185-186): drop every line starting with '#', rejoin with
newlines. -/
def stripCommentLines (s : String) : String :=
  ⟨joinNL ((pySplitLines s.data).filter (fun l => !litAt ['#'] l))⟩

/-- The strategy cascade of parse_sms_text on the comment-stripped text
(parsers.py lines 37-144): each strategy's result is returned as soon as it is
non-empty, never merged. -/
def smsCore (fmt : Int → String) (text : List Char) : List SmsRecord :=
  let s1 := smsScan1 fmt (text.length + 1) text
  if !s1.isEmpty then s1 else
  let lines := pySplitLines text
  let s2 := linesConcat (smsStrat2Line fmt) lines
  if !s2.isEmpty then s2 else
  let s3 := smsStrat3 fmt lines
  if !s3.isEmpty then s3 else
  linesConcat (smsStrat4Line fmt) lines

/-- parse_sms_text (parsers.py lines 21-144). -/
def parse_sms_text (fmt : Int → String) (raw_text : String) : List SmsRecord :=
  if raw_text = "" then []
  else
    let text := stripCommentLines raw_text
    if pyStrip text = "" then []
    else smsCore fmt text.data

/-! Call log strategy 1 and 3 (parsers.py lines 192-208 and 241-262): the
IGNORECASE patterns `ALT=(.*?),\s*K2=(.*?),\s*K3=(\d+),\s*K4=(\d+)` iterated
with finditer; `.` excludes newlines. -/

/-- The rigid tail `,\s*K3=(\d+),\s*K4=(\d+)` (keys without their '='). -/
def callsTail2 (k3 k4 : List Char) (cs : List Char) :
    Option (List Char × List Char × List Char) :=
  match commaCiKeyDrop k3 cs with
  | none => none
  | some cs3 =>
    let d1 := cs3.takeWhile Char.isDigit
    if !d1.isEmpty then
      match commaCiKeyDrop k4 (cs3.drop d1.length) with
      | none => none
      | some cs6 =>
        let d2 := cs6.takeWhile Char.isDigit
        if !d2.isEmpty then some (d1, d2, cs6.drop d2.length) else none
    else none

/-- `,\s*K2=` then the number capture (newline-free) and the rigid tail. -/
def callsNameTail (k2 k3 k4 : List Char) (cs : List Char) :
    Option (List Char × List Char × List Char × List Char) :=
  match commaCiKeyDrop k2 cs with
  | none => none
  | some afterEq =>
    match findSplitNoNl (callsTail2 k3 k4) [] afterEq with
    | some (num, d1, d2, rest) => some (num, d1, d2, rest)
    | none => none

/-- The alternation `(?:K|K')=` at the current position: keys tried in
pattern order (their first characters differ, so at most one can match). -/
def callsKeyAt (keys : List (List Char)) (cs : List Char) : Option (List Char) :=
  match keys with
  | [] => none
  | k :: ks =>
    if ciAt k cs && litAt ['='] (cs.drop k.length) then some ((cs.drop k.length).drop 1)
    else callsKeyAt ks cs

/-- finditer driver for the four-field call patterns; every match appends a
record built from the stripped captures (no further condition). -/
def callsScanP (fmt : Int → String) (keys1 : List (List Char)) (k2 k3 k4 : List Char) :
    Nat → List Char → List CallRecord
  | 0, _ => []
  | _ + 1, [] => []
  | fuel + 1, cs =>
    match callsKeyAt keys1 cs with
    | some afterK1 =>
      match findSplitNoNl (callsNameTail k2 k3 k4) [] afterK1 with
      | some (nameRaw, num, d1, d2, rest) =>
        let nm : String := ⟨pyStripChars nameRaw⟩
        let nu : String := ⟨pyStripChars num⟩
        let du : String := ⟨pyStripChars d1⟩
        let dt : String := ⟨pyStripChars d2⟩
        ⟨nm, nu, du, dt, if dt != "" then epoch_ms_to_str fmt dt else "Unknown"⟩ ::
          callsScanP fmt keys1 k2 k3 k4 fuel rest
      | none => callsScanP fmt keys1 k2 k3 k4 fuel (cs.drop 1)
    | none => callsScanP fmt keys1 k2 k3 k4 fuel (cs.drop 1)

/-! Call log strategy 2 (parsers.py lines 214-238): per-line independent
field searches. -/

/-- re.search of `(?:K|K')=(.*?)(?:,|$)`: value of the leftmost key
occurrence, up to the first comma or the end of the line. -/
def searchKeyVal (keys : List (List Char)) : List Char → Option (List Char)
  | [] => none
  | c :: cs =>
    match callsKeyAt keys (c :: cs) with
    | some rest => some (rest.takeWhile (fun x => x != ','))
    | none => searchKeyVal keys cs

/-- re.search of `K=(\d+)`: leftmost key occurrence followed by at least one
digit; the maximal digit run there. -/
def searchKeyDigits (keys : List (List Char)) : List Char → Option (List Char)
  | [] => none
  | c :: cs =>
    match callsKeyAt keys (c :: cs) with
    | some rest =>
      let ds := rest.takeWhile Char.isDigit
      if !ds.isEmpty then some ds else searchKeyDigits keys cs
    | none => searchKeyDigits keys cs

/-- Call strategy 2 on one line, guarded by the case-sensitive substring
tests of parsers.py line 215; a record is appended for every guarded line,
with "" / "0" defaults for missing fields. -/
def callsStrat2Line (fmt : Int → String) (line : List Char) : List CallRecord :=
  if substrB "duration=".data line && substrB "date=".data line then
    let nm := match searchKeyVal ["name".data, "cached_name".data] line with
      | some v => (⟨pyStripChars v⟩ : String)
      | none => ""
    let nu := match searchKeyVal ["number".data] line with
      | some v => (⟨pyStripChars v⟩ : String)
      | none => ""
    let du := match searchKeyDigits ["duration".data] line with
      | some d => (⟨pyStripChars d⟩ : String)
      | none => "0"
    let dt := match searchKeyDigits ["date".data] line with
      | some d => (⟨pyStripChars d⟩ : String)
      | none => ""
    [⟨nm, nu, du, dt, if dt != "" then epoch_ms_to_str fmt dt else "Unknown"⟩]
  else []

/-- Call strategy 4 on one line (parsers.py lines 264-293): like SMS strategy
4 with lowercased keys, call-field aliases, duration defaulting to "0", and
the record kept when number or name is non-empty. -/
def callsStrat4Line (fmt : Int → String) (line : List Char) : List CallRecord :=
  if (pyStripChars line).isEmpty || litAt "Row:".data line then []
  else
    let pairs := (pyFindPairs (line.length + 1) line).map
      (fun kv => (lowerStr (⟨kv.1⟩ : String), (⟨pyStripChars kv.2⟩ : String)))
    let nm := pyOr (dictGet pairs "name") (pyOr (dictGet pairs "cached_name")
      (pyOr (dictGet pairs "caller_name") (pyOr (dictGet pairs "contact") "")))
    let nu := pyOr (dictGet pairs "number") (pyOr (dictGet pairs "phone_number")
      (pyOr (dictGet pairs "phone") ""))
    let du := pyOr (dictGet pairs "duration") (pyOr (dictGet pairs "call_duration") "0")
    let dt := pyOr (dictGet pairs "date") (pyOr (dictGet pairs "timestamp")
      (pyOr (dictGet pairs "time") ""))
    if nu != "" || nm != "" then
      [⟨nm, nu, du, dt, if dt != "" then epoch_ms_to_str fmt dt else "Unknown"⟩]
    else []

/-- The strategy cascade of parse_calls_text on the comment-stripped text
(parsers.py lines 191-295). -/
def callsCore (fmt : Int → String) (text : List Char) : List CallRecord :=
  let s1 := callsScanP fmt ["name".data, "cached_name".data] "number".data
    "duration".data "date".data (text.length + 1) text
  if !s1.isEmpty then s1 else
  let lines := pySplitLines text
  let s2 := linesConcat (callsStrat2Line fmt) lines
  if !s2.isEmpty then s2 else
  let s3a := callsScanP fmt ["caller_name".data] "phone_number".data
    "call_duration".data "timestamp".data (text.length + 1) text
  if !s3a.isEmpty then s3a else
  let s3b := callsScanP fmt ["contact".data] "number".data "duration".data
    "time".data (text.length + 1) text
  if !s3b.isEmpty then s3b else
  linesConcat (callsStrat4Line fmt) lines

/-- parse_calls_text (parsers.py lines 175-295). -/
def parse_calls_text (fmt : Int → String) (raw_text : String) : List CallRecord :=
  if raw_text = "" then []
  else
    let text := stripCommentLines raw_text
    if pyStrip text = "" then []
    else callsCore fmt text.data

/-! Contacts parser (parsers.py lines 149-169): the single IGNORECASE pattern
`Row:\s*\d+\s+display_name=(?P<name>.*?),\s*data1=(?P<number>[\+\d\s\(\)-]+)`
iterated with finditer over the raw text — with no comment stripping. -/

/-- The rigid head `Row:\s*\d+\s+display_name=`. -/
def contactsHead (cs : List Char) : Option (List Char) :=
  if ciAt "row:".data cs then
    let cs1 := (cs.drop 4).dropWhile isPySpace
    let ds := cs1.takeWhile Char.isDigit
    if !ds.isEmpty then
      let cs2 := cs1.drop ds.length
      let ws := cs2.takeWhile isPySpace
      if !ws.isEmpty then
        let cs3 := cs2.drop ws.length
        if ciAt "display_name".data cs3 && litAt ['='] (cs3.drop 12) then
          some ((cs3.drop 12).drop 1)
        else none
      else none
    else none
  else none

/-- The tail `,\s*data1=([\+\d\s\(\)-]+)` after the name capture. -/
def contactsTail : List Char → Option (List Char × List Char)
  | [] => none
  | c :: cs1 =>
    if c = ',' then
      let cs2 := cs1.dropWhile isPySpace
      if ciAt "data1".data cs2 && litAt ['='] (cs2.drop 5) then
        let cs3 := (cs2.drop 5).drop 1
        let num := cs3.takeWhile classChar
        if !num.isEmpty then some (num, cs3.drop num.length) else none
      else none
    else none

/-- finditer driver of the contacts pattern; name and number are stripped
(parsers.py lines 162-163). -/
def contactsScan : Nat → List Char → List ContactRecord
  | 0, _ => []
  | _ + 1, [] => []
  | fuel + 1, cs =>
    match contactsHead cs with
    | some afterEq =>
      match findSplitNoNl contactsTail [] afterEq with
      | some (nameRaw, num, rest) =>
        ⟨(⟨pyStripChars nameRaw⟩ : String), (⟨pyStripChars num⟩ : String)⟩ ::
          contactsScan fuel rest
      | none => contactsScan fuel (cs.drop 1)
    | none => contactsScan fuel (cs.drop 1)

/-- parse_contacts_text (parsers.py lines 149-169): no comment stripping, no
fallback strategies. -/
def parse_contacts_text (raw_text : String) : List ContactRecord :=
  if raw_text = "" then []
  else contactsScan (raw_text.data.length + 1) raw_text.data

/-! Helper lemmas about takeWhile / dropWhile / find? used for the fallback
ordering characterization. -/

theorem head?_dropWhileNot_eq_find? (q : α → Bool) :
    ∀ l : List α, (l.dropWhile (fun x => !q x)).head? = l.find? q := by
  intro l
  induction l with
  | nil => rfl
  | cons x xs ih =>
    by_cases h : q x
    · simp [List.dropWhile, List.find?, h]
    · simp [List.dropWhile, List.find?, h, ih]

theorem takeWhile_append_of_all {q : α → Bool} :
    ∀ l₁ l₂ : List α, (∀ x ∈ l₁, q x = true) →
      (l₁ ++ l₂).takeWhile q = l₁ ++ l₂.takeWhile q ∧
      (l₁ ++ l₂).dropWhile q = l₂.dropWhile q := by
  intro l₁
  induction l₁ with
  | nil => intro l₂ _; simp
  | cons x xs ih =>
    intro l₂ h
    have hx : q x = true := h x (by simp)
    have ih' := ih l₂ (fun y hy => h y (by simp [hy]))
    simp [List.takeWhile, List.dropWhile, hx, ih'.1, ih'.2]

theorem takeWhile_append_of_stop {q : α → Bool} :
    ∀ l₁ l₂ : List α, l₁.dropWhile q ≠ [] →
      (l₁ ++ l₂).takeWhile q = l₁.takeWhile q ∧
      (l₁ ++ l₂).dropWhile q = l₁.dropWhile q ++ l₂ := by
  intro l₁
  induction l₁ with
  | nil => intro l₂ h; simp at h
  | cons x xs ih =>
    intro l₂ h
    by_cases hx : q x
    · have hxs : xs.dropWhile q ≠ [] := by
        simpa [List.dropWhile, hx] using h
      have ih' := ih l₂ hxs
      simp [List.takeWhile, List.dropWhile, hx, ih'.1, ih'.2]
    · simp [List.takeWhile, List.dropWhile, hx]

theorem take_one_append_of_ne_nil (l₁ l₂ : List α) (h : l₁ ≠ []) :
    (l₁ ++ l₂).take 1 = l₁.take 1 := by
  cases l₁ with
  | nil => exact absurd rfl h
  | cons x xs => simp

theorem find?_append_of_some {q : α → Bool} {l₁ : List α} {a : α} (l₂ : List α)
    (h : l₁.find? q = some a) : (l₁ ++ l₂).find? q = some a := by
  induction l₁ with
  | nil => simp [List.find?] at h
  | cons x xs ih =>
    by_cases hx : q x
    · rw [List.find?_cons_of_pos _ hx] at h
      rw [List.cons_append, List.find?_cons_of_pos _ hx]
      exact h
    · rw [List.find?_cons_of_neg _ (by simp [hx])] at h
      rw [List.cons_append, List.find?_cons_of_neg _ (by simp [hx])]
      exact ih h

theorem find?_append_of_none {q : α → Bool} {l₁ : List α} (l₂ : List α)
    (h : l₁.find? q = none) : (l₁ ++ l₂).find? q = l₂.find? q := by
  induction l₁ with
  | nil => simp
  | cons x xs ih =>
    by_cases hx : q x
    · rw [List.find?_cons_of_pos _ hx] at h
      exact absurd h (by simp)
    · rw [List.find?_cons_of_neg _ (by simp [hx])] at h
      rw [List.cons_append, List.find?_cons_of_neg _ (by simp [hx])]
      exact ih h

/-- Characterization of the inner projection loop against the combination
order and first-success semantics. -/
theorem qcpInner_spec (run : List String → String) (u : String) :
    ∀ ps : List String,
      qcpInner run u ps =
        ((ps.map (fun p => (u, p))).takeWhile (fun up => !goodPair run up) ++
           ((ps.map (fun p => (u, p))).dropWhile (fun up => !goodPair run up)).take 1,
         ((ps.map (fun p => (u, p))).find? (goodPair run)).map
           (fun up => (queryAttempt run up.1 up.2, up.2))) := by
  intro ps
  induction ps with
  | nil => rfl
  | cons p ps ih =>
    by_cases h : isGoodResult (queryAttempt run u p)
    · have hg : goodPair run (u, p) = true := h
      simp [qcpInner, h, List.takeWhile, List.dropWhile, List.find?, hg]
    · have hg : goodPair run (u, p) = false := by
        simp [goodPair, h]
      simp [qcpInner, h, List.takeWhile, List.dropWhile, List.find?, hg, ih]

/-- Elements of the inner combination list have the fixed uri as the first
component. -/
theorem mem_map_pair {u : String} {ps : List String} {up : String × String}
    (h : up ∈ ps.map (fun p => (u, p))) : up.1 = u := by
  obtain ⟨p, _, rfl⟩ := List.mem_map.1 h
  rfl

/-- Characterization of the outer uri loop. -/
theorem qcpOuter_spec (run : List String → String) (projs : List String) :
    ∀ us : List String,
      qcpOuter run projs us =
        ((combosOf us projs).takeWhile (fun up => !goodPair run up) ++
           ((combosOf us projs).dropWhile (fun up => !goodPair run up)).take 1,
         ((combosOf us projs).find? (goodPair run)).map
           (fun up => (queryAttempt run up.1 up.2, up.1, up.2))) := by
  intro us
  induction us with
  | nil => rfl
  | cons u us ih =>
    have hinner := qcpInner_spec run u projs
    cases hf : (projs.map (fun p => (u, p))).find? (goodPair run) with
    | some up =>
      obtain ⟨u1, p1⟩ := up
      have hup : u1 = u := mem_map_pair (List.mem_of_find?_eq_some hf)
      subst hup
      have hdw : (projs.map (fun p => (u1, p))).dropWhile (fun up => !goodPair run up) ≠ [] := by
        intro hnil
        have := head?_dropWhileNot_eq_find? (goodPair run) (projs.map (fun p => (u1, p)))
        rw [hnil, hf] at this
        simp at this
      have htw := takeWhile_append_of_stop (q := fun up => !goodPair run up)
        (projs.map (fun p => (u1, p))) (combosOf us projs) hdw
      have hfind := find?_append_of_some (q := goodPair run) (combosOf us projs) hf
      have ht1 := take_one_append_of_ne_nil
        ((projs.map (fun p => (u1, p))).dropWhile (fun up => !goodPair run up))
        (combosOf us projs) hdw
      simp [qcpOuter, hinner, hf, combosOf, htw.1, htw.2, hfind, ht1]
    | none =>
      have hall : ∀ x ∈ projs.map (fun p => (u, p)), (!goodPair run x) = true := by
        intro x hx
        have := List.find?_eq_none.1 hf x hx
        simp [this]
      have htw := takeWhile_append_of_all (q := fun up => !goodPair run up)
        (projs.map (fun p => (u, p))) (combosOf us projs) hall
      have hdw : (projs.map (fun p => (u, p))).dropWhile (fun up => !goodPair run up) = [] := by
        cases hd : (projs.map (fun p => (u, p))).dropWhile (fun up => !goodPair run up) with
        | nil => rfl
        | cons y ys =>
          have := head?_dropWhileNot_eq_find? (goodPair run) (projs.map (fun p => (u, p)))
          rw [hd, hf] at this
          simp at this
      have hfind := find?_append_of_none (q := goodPair run) (combosOf us projs) hf
      have htwl : (projs.map (fun p => (u, p))).takeWhile (fun up => !goodPair run up) =
          projs.map (fun p => (u, p)) := by
        exact List.takeWhile_eq_self_iff.2 hall
      simp [qcpOuter, hinner, hf, combosOf, htw.1, htw.2, hfind, hdw, htwl, ih]

/-- CLAIM C1.  The fallback engine attempts uri x projection combinations with
the uri list as the outer loop and the projection list as the inner loop, and
returns at the first combination classified as success (non-empty output
containing no error marker) with that output and exactly that combination;
concretely, with uriVariants=[u1,u2], projectionVariants=[p1,p2] and a stub
transport failing (u1,p1) and (u1,p2) and succeeding on (u2,p1), exactly three
combinations are attempted in that order and the result is success=true,
uri_used=u2, projection_used=p1. -/
theorem claim_C1_query_fallback_order :
    (∀ (run : List String → String) (uris projs : List String) (label : String),
      (query_content_provider_with_fallbacks run uris projs label =
        match (combosOf uris projs).find? (goodPair run) with
        | some up => ⟨true, queryAttempt run up.1 up.2, some up.1, some up.2⟩
        | none => ⟨false, "All " ++ label ++ " query attempts failed.", none, none⟩) ∧
      qcpTrace run uris projs =
        (combosOf uris projs).takeWhile (fun up => !goodPair run up) ++
          ((combosOf uris projs).dropWhile (fun up => !goodPair run up)).take 1) ∧
    (query_content_provider_with_fallbacks stubRun ["u1", "u2"] ["p1", "p2"] "SMS" =
        ⟨true, "Row: 0 data=1", some "u2", some "p1"⟩ ∧
      qcpTrace stubRun ["u1", "u2"] ["p1", "p2"] =
        [("u1", "p1"), ("u1", "p2"), ("u2", "p1")]) := by
  refine ⟨fun run uris projs label => ?_, by decide⟩
  have h := qcpOuter_spec run projs uris
  constructor
  · unfold query_content_provider_with_fallbacks
    rw [h]
    cases hf : (combosOf uris projs).find? (goodPair run) with
    | some up => simp
    | none => simp
  · unfold qcpTrace
    rw [h]

/-! Lemmas about the discovery engine (claims C2, C9, C10). -/

theorem string_data_ext {s t : String} (h : s.data = t.data) : s = t := by
  cases s
  cases t
  exact congrArg String.mk h

theorem processChildren_push_mem (dirOut : String → String) (current : String) :
    ∀ entries q, q ∈ (processChildren dirOut current entries).2 →
      ∃ n ∈ entries, q = joinPath current n := by
  intro entries
  induction entries with
  | nil => intro q hq; simp [processChildren] at hq
  | cons name restNames ih =>
    intro q hq
    cases h1 : isDotArrow name <;>
      cases h2 : is_directory dirOut (joinPath current name) <;>
      simp only [processChildren, h1, h2, Bool.false_eq_true, if_true, if_false,
        List.mem_append, List.mem_singleton] at hq
    · rcases ih q hq with ⟨n, hn, rfl⟩
      exact ⟨n, by simp [hn], rfl⟩
    · rcases hq with hq | rfl
      · rcases ih q hq with ⟨n, hn, rfl⟩
        exact ⟨n, by simp [hn], rfl⟩
      · exact ⟨name, by simp, rfl⟩
    · rcases ih q hq with ⟨n, hn, rfl⟩
      exact ⟨n, by simp [hn], rfl⟩
    · rcases hq with hq | rfl
      · rcases ih q hq with ⟨n, hn, rfl⟩
        exact ⟨n, by simp [hn], rfl⟩
      · exact ⟨name, by simp, rfl⟩

theorem processChildren_push_length (dirOut : String → String) (current : String) :
    ∀ entries, (processChildren dirOut current entries).2.length ≤ entries.length := by
  intro entries
  induction entries with
  | nil => simp [processChildren]
  | cons name restNames ih =>
    cases h1 : isDotArrow name <;>
      cases h2 : is_directory dirOut (joinPath current name) <;>
      simp only [processChildren, h1, h2, Bool.false_eq_true, if_true, if_false,
        List.length_append, List.length_cons, List.length_singleton, List.length_nil] <;>
      omega

theorem processChildren_rec_sound (dirOut : String → String) (current : String) :
    ∀ entries d, d ∈ (processChildren dirOut current entries).1 →
      ∃ n ∈ entries,
        d = ⟨joinPath current n, is_directory dirOut (joinPath current n)⟩ ∧
        (is_directory dirOut (joinPath current n) = false → isDotArrow n = false) := by
  intro entries
  induction entries with
  | nil => intro d hd; simp [processChildren] at hd
  | cons name restNames ih =>
    intro d hd
    cases h1 : isDotArrow name <;>
      cases h2 : is_directory dirOut (joinPath current name) <;>
      simp only [processChildren, h1, h2, Bool.false_eq_true, if_true, if_false,
        List.mem_cons] at hd
    · rcases hd with rfl | hd
      · exact ⟨name, by simp, by simp [h2], by simp [h1, h2]⟩
      · rcases ih d hd with ⟨n, hn, hd1, hd2⟩
        exact ⟨n, by simp [hn], hd1, hd2⟩
    · rcases hd with rfl | hd
      · exact ⟨name, by simp, by simp [h2], by simp [h1, h2]⟩
      · rcases ih d hd with ⟨n, hn, hd1, hd2⟩
        exact ⟨n, by simp [hn], hd1, hd2⟩
    · rcases ih d hd with ⟨n, hn, hd1, hd2⟩
      exact ⟨n, by simp [hn], hd1, hd2⟩
    · rcases hd with rfl | hd
      · exact ⟨name, by simp, by simp [h2], by simp [h1, h2]⟩
      · rcases ih d hd with ⟨n, hn, hd1, hd2⟩
        exact ⟨n, by simp [hn], hd1, hd2⟩

theorem length_le_maxChildCount (lsOut : String → String) :
    ∀ (U : List String) (p : String), p ∈ U →
      (list_directory lsOut p).length ≤ maxChildCount lsOut U := by
  intro U
  induction U with
  | nil => intro p hp; simp at hp
  | cons u U ih =>
    intro p hp
    rcases List.mem_cons.1 hp with rfl | hp
    · exact le_max_left _ _
    · exact le_trans (ih p hp) (le_max_right _ _)

theorem remainingCount_cons {U : List String} (visited : List String) {c : String}
    (hnd : U.Nodup) (hc : c ∈ U) (hcv : c ∉ visited) :
    remainingCount U (c :: visited) + 1 = remainingCount U visited := by
  induction U with
  | nil => simp at hc
  | cons u U ih =>
    rw [List.nodup_cons] at hnd
    by_cases huc : u = c
    · subst huc
      have e1 : List.filter (fun p => decide (p ∉ u :: visited)) (u :: U) =
          List.filter (fun p => decide (p ∉ u :: visited)) U := by
        rw [List.filter_cons_of_neg]
        simp
      have e2 : List.filter (fun p => decide (p ∉ visited)) (u :: U) =
          u :: List.filter (fun p => decide (p ∉ visited)) U := by
        rw [List.filter_cons_of_pos]
        simpa using hcv
      have e3 : List.filter (fun p => decide (p ∉ u :: visited)) U =
          List.filter (fun p => decide (p ∉ visited)) U := by
        refine List.filter_congr (fun p hp => ?_)
        have hpc : p ≠ u := fun h => hnd.1 (h ▸ hp)
        simp [List.mem_cons, hpc]
      rw [remainingCount, remainingCount, e1, e2, e3, List.length_cons]
    · have hcU : c ∈ U := by
        rcases List.mem_cons.1 hc with h | h
        · exact absurd h.symm huc
        · exact h
      have key := ih hnd.2 hcU
      rw [remainingCount, remainingCount] at key
      by_cases hu : u ∈ visited
      · have e1 : List.filter (fun p => decide (p ∉ c :: visited)) (u :: U) =
            List.filter (fun p => decide (p ∉ c :: visited)) U := by
          rw [List.filter_cons_of_neg]
          simp [List.mem_cons, hu]
        have e2 : List.filter (fun p => decide (p ∉ visited)) (u :: U) =
            List.filter (fun p => decide (p ∉ visited)) U := by
          rw [List.filter_cons_of_neg]
          simp [hu]
        rw [remainingCount, remainingCount, e1, e2]
        exact key
      · have e1 : List.filter (fun p => decide (p ∉ c :: visited)) (u :: U) =
            u :: List.filter (fun p => decide (p ∉ c :: visited)) U := by
          rw [List.filter_cons_of_pos]
          simp [List.mem_cons, huc, hu]
        have e2 : List.filter (fun p => decide (p ∉ visited)) (u :: U) =
            u :: List.filter (fun p => decide (p ∉ visited)) U := by
          rw [List.filter_cons_of_pos]
          simpa using hu
        rw [remainingCount, remainingCount, e1, e2, List.length_cons, List.length_cons]
        omega

theorem remainingCount_nil_right (U : List String) : remainingCount U [] = U.length := by
  simp [remainingCount]

theorem bruteScanAux_total (lsOut dirOut : String → String) (U : List String)
    (hclosed : ∀ p ∈ U, ∀ n ∈ list_directory lsOut p, joinPath p n ∈ U)
    (hnd : U.Nodup) :
    ∀ (fuel : Nat) (stack visited : List String) (discovered : List DiscoveredPath),
      (∀ p ∈ stack, p ∈ U) →
      stack.length + (maxChildCount lsOut U + 1) * remainingCount U visited < fuel →
      (bruteScanAux lsOut dirOut fuel stack visited discovered).isSome := by
  intro fuel
  induction fuel with
  | zero => intro stack visited discovered _ h; omega
  | succ fuel ih =>
    intro stack visited discovered hstack hmeasure
    cases stack with
    | nil => simp [bruteScanAux]
    | cons current rest =>
      by_cases hv : current ∈ visited
      · simp only [bruteScanAux, if_pos hv]
        refine ih rest visited discovered
          (fun p hp => hstack p (List.mem_cons_of_mem _ hp)) ?_
        simp only [List.length_cons] at hmeasure
        omega
      · simp only [bruteScanAux, if_neg hv]
        have hcu : current ∈ U := hstack current (List.mem_cons_self _ _)
        have hlen1 :
            (processChildren dirOut current (list_directory lsOut current)).2.length ≤
              maxChildCount lsOut U :=
          le_trans (processChildren_push_length dirOut current _)
            (length_le_maxChildCount lsOut U current hcu)
        have hrc := remainingCount_cons visited hnd hcu hv
        refine ih _ _ _ ?_ ?_
        · intro p hp
          rcases List.mem_append.1 hp with hp | hp
          · rcases processChildren_push_mem dirOut current _ p hp with ⟨n, hn, rfl⟩
            exact hclosed current hcu n hn
          · exact hstack p (List.mem_cons_of_mem _ hp)
        · have hmul : (maxChildCount lsOut U + 1) * remainingCount U visited =
              (maxChildCount lsOut U + 1) * remainingCount U (current :: visited) +
                (maxChildCount lsOut U + 1) := by
            rw [← hrc, Nat.mul_succ]
          simp only [List.length_append, List.length_cons] at hmeasure ⊢
          omega

theorem bruteScanAux_visited_nodup (lsOut dirOut : String → String) :
    ∀ (fuel : Nat) (stack visited : List String) (discovered D : List DiscoveredPath)
      (V : List String),
      bruteScanAux lsOut dirOut fuel stack visited discovered = some (D, V) →
      visited.Nodup → V.Nodup := by
  intro fuel
  induction fuel with
  | zero => intro stack visited discovered D V h; simp [bruteScanAux] at h
  | succ fuel ih =>
    intro stack visited discovered D V h hnd
    cases stack with
    | nil =>
      simp only [bruteScanAux, Option.some.injEq, Prod.mk.injEq] at h
      rw [← h.2]
      exact hnd
    | cons current rest =>
      by_cases hv : current ∈ visited
      · rw [bruteScanAux, if_pos hv] at h
        exact ih _ _ _ _ _ h hnd
      · rw [bruteScanAux, if_neg hv] at h
        exact ih _ _ _ _ _ h (List.nodup_cons.2 ⟨hv, hnd⟩)

theorem bruteScanAux_visited_mono (lsOut dirOut : String → String) :
    ∀ (fuel : Nat) (stack visited : List String) (discovered D : List DiscoveredPath)
      (V : List String),
      bruteScanAux lsOut dirOut fuel stack visited discovered = some (D, V) →
      ∀ p ∈ visited, p ∈ V := by
  intro fuel
  induction fuel with
  | zero => intro stack visited discovered D V h; simp [bruteScanAux] at h
  | succ fuel ih =>
    intro stack visited discovered D V h
    cases stack with
    | nil =>
      simp only [bruteScanAux, Option.some.injEq, Prod.mk.injEq] at h
      rw [← h.2]
      exact fun p hp => hp
    | cons current rest =>
      by_cases hv : current ∈ visited
      · rw [bruteScanAux, if_pos hv] at h
        exact ih _ _ _ _ _ h
      · rw [bruteScanAux, if_neg hv] at h
        exact fun p hp => ih _ _ _ _ _ h p (List.mem_cons_of_mem _ hp)

theorem bruteScanAux_sound (lsOut dirOut : String → String) :
    ∀ (fuel : Nat) (stack visited : List String) (discovered D : List DiscoveredPath)
      (V : List String),
      bruteScanAux lsOut dirOut fuel stack visited discovered = some (D, V) →
      ∀ d ∈ D, d ∈ discovered ∨ ∃ p, p ∈ V ∧ childOriginOf lsOut dirOut p d := by
  intro fuel
  induction fuel with
  | zero => intro stack visited discovered D V h; simp [bruteScanAux] at h
  | succ fuel ih =>
    intro stack visited discovered D V h d hd
    cases stack with
    | nil =>
      simp only [bruteScanAux, Option.some.injEq, Prod.mk.injEq] at h
      exact Or.inl (h.1 ▸ hd)
    | cons current rest =>
      by_cases hv : current ∈ visited
      · rw [bruteScanAux, if_pos hv] at h
        exact ih _ _ _ _ _ h d hd
      · rw [bruteScanAux, if_neg hv] at h
        rcases ih _ _ _ _ _ h d hd with hmem | hex
        · rcases List.mem_append.1 hmem with hmem | hmem
          · exact Or.inl hmem
          · refine Or.inr ⟨current, ?_, ?_⟩
            · exact bruteScanAux_visited_mono lsOut dirOut _ _ _ _ _ _ h current
                (List.mem_cons_self _ _)
            · rcases processChildren_rec_sound dirOut current _ d hmem with ⟨n, hn, h1, h2⟩
              exact ⟨n, hn, h1, h2⟩
        · exact Or.inr hex

/-! Path shape lemmas: joining clean paths never collapses and never
reproduces the root. -/

theorem collapseSS_of_not_hasDS : ∀ cs, hasDS cs = false → collapseSS cs = cs := by
  intro cs
  induction cs with
  | nil => intro _; rfl
  | cons c rest ih =>
    intro h
    cases rest with
    | nil => rfl
    | cons c2 rest2 =>
      have hcond : ¬(c = '/' ∧ c2 = '/') := by
        rintro ⟨rfl, rfl⟩
        simp [hasDS] at h
      have h2 : hasDS (c2 :: rest2) = false := by
        rw [hasDS] at h
        exact (Bool.or_eq_false_iff.1 h).2
      rw [collapseSS, if_neg hcond, ih h2]

theorem hasDS_of_no_slash : ∀ cs : List Char, (∀ c ∈ cs, c ≠ '/') → hasDS cs = false := by
  intro cs
  induction cs with
  | nil => intro _; rfl
  | cons a rest ih =>
    intro h
    cases rest with
    | nil => rfl
    | cons b rest2 =>
      have ha : (a == '/') = false := by
        simpa using h a (by simp)
      have hrest : ∀ c ∈ b :: rest2, c ≠ '/' := fun c hc => h c (by simp [hc])
      rw [hasDS, ha, ih hrest]
      rfl

theorem hasDS_slash_cons (n : List Char) (hn : ∀ c ∈ n, c ≠ '/') :
    hasDS ('/' :: n) = false := by
  cases n with
  | nil => rfl
  | cons c n2 =>
    have hc : (c == '/') = false := by
      simpa using hn c (by simp)
    rw [hasDS, hasDS_of_no_slash _ hn]
    simp [hc]

theorem hasDS_append_slash : ∀ p : List Char, ∀ n : List Char, hasDS p = false →
    p.getLast? ≠ some '/' → (∀ c ∈ n, c ≠ '/') →
    hasDS (p ++ '/' :: n) = false := by
  intro p
  induction p with
  | nil => intro n _ _ hn; exact hasDS_slash_cons n hn
  | cons a p2 ih =>
    intro n hp hlast hn
    cases p2 with
    | nil =>
      have ha : (a == '/') = false := by
        simp only [List.getLast?_singleton] at hlast
        simpa using fun h => hlast (by rw [h])
      rw [List.cons_append, List.nil_append, hasDS, ha, hasDS_slash_cons n hn]
      rfl
    | cons b p3 =>
      rw [hasDS] at hp
      have hfirst : (a == '/' && b == '/') = false := (Bool.or_eq_false_iff.1 hp).1
      have hrest : hasDS (b :: p3) = false := (Bool.or_eq_false_iff.1 hp).2
      have hlast2 : (b :: p3).getLast? ≠ some '/' := by
        simpa [List.getLast?_cons_cons] using hlast
      rw [List.cons_append, List.cons_append, hasDS, hfirst]
      have := ih n hrest hlast2 hn
      rw [List.cons_append] at this
      rw [this]
      rfl

theorem getLast?_append_slash (p n : List Char) (hne : n ≠ [])
    (hn : ∀ c ∈ n, c ≠ '/') : (p ++ '/' :: n).getLast? ≠ some '/' := by
  rw [List.getLast?_append_cons]
  cases n with
  | nil => exact absurd rfl hne
  | cons m ms =>
    rw [List.getLast?_cons_cons]
    intro hsome
    have hmem : '/' ∈ m :: ms := List.mem_of_mem_getLast? hsome
    exact hn '/' hmem rfl

theorem head?_dropWhile_false {q : α → Bool} :
    ∀ l : List α, ∀ a, (l.dropWhile q).head? = some a → q a = false := by
  intro l
  induction l with
  | nil => intro a h; simp at h
  | cons x xs ih =>
    intro a h
    by_cases hx : q x
    · rw [List.dropWhile_cons_of_pos hx] at h
      exact ih a h
    · rw [List.dropWhile_cons_of_neg hx] at h
      simp only [List.head?_cons, Option.some.injEq] at h
      rw [← h]
      exact Bool.eq_false_iff.2 hx

theorem rstripSlash_getLast (s : String) :
    (rstripSlash s).data.getLast? ≠ some '/' := by
  show ((s.data.reverse.dropWhile (fun c => c == '/')).reverse).getLast? ≠ some '/'
  rw [List.getLast?_reverse]
  intro h
  have := head?_dropWhile_false (q := fun c => c == '/') s.data.reverse '/' h
  simp at this

theorem rstripSlash_cases (s : String) :
    rstripSlash s = s ∨ s.data.getLast? = some '/' := by
  cases hr : s.data.reverse with
  | nil =>
    left
    have hdata : s.data = [] := by
      simpa using congrArg List.reverse hr
    refine string_data_ext ?_
    show (s.data.reverse.dropWhile (fun c => c == '/')).reverse = s.data
    rw [hdata]
    rfl
  | cons h t =>
    by_cases hslash : h = '/'
    · right
      subst hslash
      rw [← List.head?_reverse, hr]
      rfl
    · left
      have hq : ((fun c => c == '/') h) = false := by simpa using hslash
      refine string_data_ext ?_
      show (s.data.reverse.dropWhile (fun c => c == '/')).reverse = s.data
      rw [hr, List.dropWhile_cons_of_neg (by simp [hq]), ← hr, List.reverse_reverse]

theorem list_directory_mem_ne {lsOut : String → String} {p n : String}
    (h : n ∈ list_directory lsOut p) : n ≠ "" := by
  simp only [list_directory] at h
  split at h
  · simp at h
  · have := List.mem_filter.1 h
    simpa using this.2

theorem string_ne_empty_data {n : String} (h : n ≠ "") : n.data ≠ [] := by
  intro hd
  exact h (string_data_ext (by simpa using hd))

theorem joinPath_good {rootR p n : String} (hp : goodUnder rootR p) (hne : n ≠ "")
    (hn : ∀ c ∈ n.data, c ≠ '/') :
    joinPath p n = ⟨p.data ++ '/' :: n.data⟩ ∧ goodUnder rootR (joinPath p n) := by
  have hds : hasDS (p.data ++ '/' :: n.data) = false :=
    hasDS_append_slash p.data n.data hp.2.1 hp.2.2 hn
  have hjoin : joinPath p n = ⟨p.data ++ '/' :: n.data⟩ := by
    show (⟨collapseSS (p.data ++ '/' :: n.data)⟩ : String) = _
    rw [collapseSS_of_not_hasDS _ hds]
  refine ⟨hjoin, ?_⟩
  rw [hjoin]
  refine ⟨?_, hds, getLast?_append_slash p.data n.data (string_ne_empty_data hne) hn⟩
  exact hp.1.trans (List.prefix_append p.data ('/' :: n.data))

theorem bruteScanAux_visited_good (lsOut dirOut : String → String) (rootR : String)
    (hnames : ∀ p : String, ∀ n ∈ list_directory lsOut p, ∀ c ∈ n.data, c ≠ '/') :
    ∀ (fuel : Nat) (stack visited : List String) (discovered D : List DiscoveredPath)
      (V : List String),
      bruteScanAux lsOut dirOut fuel stack visited discovered = some (D, V) →
      (∀ q ∈ stack, goodUnder rootR q) →
      (∀ q ∈ visited, goodUnder rootR q) →
      ∀ q ∈ V, goodUnder rootR q := by
  intro fuel
  induction fuel with
  | zero => intro stack visited discovered D V h; simp [bruteScanAux] at h
  | succ fuel ih =>
    intro stack visited discovered D V h hstack hvis
    cases stack with
    | nil =>
      simp only [bruteScanAux, Option.some.injEq, Prod.mk.injEq] at h
      rw [← h.2]
      exact hvis
    | cons current rest =>
      by_cases hv : current ∈ visited
      · rw [bruteScanAux, if_pos hv] at h
        exact ih _ _ _ _ _ h (fun q hq => hstack q (List.mem_cons_of_mem _ hq)) hvis
      · rw [bruteScanAux, if_neg hv] at h
        have hcur : goodUnder rootR current := hstack current (List.mem_cons_self _ _)
        refine ih _ _ _ _ _ h ?_ ?_
        · intro q hq
          rcases List.mem_append.1 hq with hq | hq
          · rcases processChildren_push_mem dirOut current _ q hq with ⟨n, hn, rfl⟩
            exact (joinPath_good hcur (list_directory_mem_ne hn)
              (hnames current n hn)).2
          · exact hstack q (List.mem_cons_of_mem _ hq)
        · intro q hq
          rcases List.mem_cons.1 hq with rfl | hq
          · exact hcur
          · exact hvis q hq

/-- CLAIM C2.  For every finite simulated directory tree (a finite path
universe U, duplicate-free and closed under joining a listed child name),
brute_scan_fs started inside U terminates with the provided fuel, and the
visited list of processed paths contains no duplicates: no path is popped and
processed more than once. -/
theorem claim_C2_scan_termination (lsOut dirOut : String → String) (U : List String)
    (root : String)
    (hclosed : ∀ p ∈ U, ∀ n ∈ list_directory lsOut p, joinPath p n ∈ U)
    (hnd : U.Nodup) (hroot : rstripSlash root ∈ U) :
    ∃ D V, bruteScanAux lsOut dirOut (scanFuel lsOut U) [rstripSlash root] [] [] =
        some (D, V) ∧ V.Nodup ∧
      brute_scan_fs lsOut dirOut (scanFuel lsOut U) root = some D := by
  have htot := bruteScanAux_total lsOut dirOut U hclosed hnd (scanFuel lsOut U)
    [rstripSlash root] [] []
    (by
      intro p hp
      rcases List.mem_singleton.1 hp with rfl
      exact hroot)
    (by
      rw [remainingCount_nil_right]
      simp only [List.length_singleton, scanFuel]
      omega)
  cases h : bruteScanAux lsOut dirOut (scanFuel lsOut U) [rstripSlash root] [] [] with
  | none => rw [h] at htot; simp at htot
  | some r =>
    obtain ⟨D, V⟩ := r
    refine ⟨D, V, rfl, ?_, ?_⟩
    · exact bruteScanAux_visited_nodup lsOut dirOut _ _ _ _ _ _ h List.nodup_nil
    · simp [brute_scan_fs, h]

/-- Witness for claim C2: a concrete two-level tree whose listing serves the
same child name twice (the same path is pushed twice but processed once). -/
theorem claim_C2_witness :
    (bruteScanAux wLs wDir (scanFuel wLs wU) [rstripSlash "/r"] [] []).isSome = true := by
  obtain ⟨D, V, h, -, -⟩ :=
    claim_C2_scan_termination wLs wDir wU "/r" (by decide) (by decide) (by decide)
  rw [h]
  rfl

theorem processChildren_eq_spec :
    ∀ (dirOut : String → String) (current : String) (entries : List String),
      processChildren dirOut current entries = processChildrenSpec dirOut current entries := by
  intro dirOut current entries
  induction entries with
  | nil => rfl
  | cons name restNames ih =>
    cases h1 : isDotArrow name <;>
      cases h2 : is_directory dirOut (joinPath current name) <;>
      simp [processChildren, processChildrenSpec, h1, h2, ih]

/-- CLAIM C9 (amended).  Hidden (dot-led) and symlink-like child entries are
probed with the directory test like ordinary entries and, when they resolve as
directories, recorded and traversed exactly like ordinary entries; when they do
not resolve as directories they are omitted from the result (not recorded as
file leaves): the per-listing loop equals the uniform reference version, and in
any completed scan every recorded file leaf stems from a child name that is
neither hidden nor symlink-like, while recorded directories carry no name
restriction. -/
theorem claim_C9_dot_arrow_handling :
    (∀ (dirOut : String → String) (current : String) (entries : List String),
      processChildren dirOut current entries = processChildrenSpec dirOut current entries) ∧
    (∀ (lsOut dirOut : String → String) (fuel : Nat) (stack visited : List String)
      (discovered D : List DiscoveredPath) (V : List String),
      bruteScanAux lsOut dirOut fuel stack visited discovered = some (D, V) →
      ∀ d ∈ D, d ∈ discovered ∨ ∃ p, p ∈ V ∧ childOriginOf lsOut dirOut p d) :=
  ⟨processChildren_eq_spec,
   fun lsOut dirOut fuel stack visited discovered D V h d hd =>
     bruteScanAux_sound lsOut dirOut fuel stack visited discovered D V h d hd⟩

/-- Counterexample for claim C9 as stated: a hidden child that is not a
directory is omitted from the result, while the ordinary child of the same
shape is recorded as a file leaf — the recording behaviour is not identical. -/
theorem claim_C9_counterexample :
    brute_scan_fs cxDotLs cxFileDir 3 "/r" = some [] ∧
    brute_scan_fs cxOrdLs cxFileDir 3 "/r" = some [⟨"/r/h", false⟩] ∧
    isDotArrow ".h" = true ∧ isDotArrow "h" = false := by decide

/-- Witness for the amended claim C9, at the concrete ordinary-child tree. -/
theorem claim_C9_witness :
    (⟨"/r/h", false⟩ : DiscoveredPath) ∈ ([] : List DiscoveredPath) ∨
      ∃ p, p ∈ ["/r"] ∧ childOriginOf cxOrdLs cxFileDir p ⟨"/r/h", false⟩ :=
  claim_C9_dot_arrow_handling.2 cxOrdLs cxFileDir 3 ["/r"] [] [] [⟨"/r/h", false⟩]
    ["/r"] (by decide) ⟨"/r/h", false⟩ (by decide)

/-- CLAIM C10 (amended).  Provided the listing oracle serves only slash-free
child names and the slash-stripped root contains no double slash, every path
returned by brute_scan_fs is a strict descendant of the root: it extends the
stripped root, differs from both the root argument and its stripped form, and
is the join of an already-visited directory path with a listed child name.
(Without the slash-freedom proviso the root itself can be returned, see the
counterexample.) -/
theorem claim_C10_no_root_in_result (lsOut dirOut : String → String) (root : String)
    (hnames : ∀ p : String, ∀ n ∈ list_directory lsOut p, ∀ c ∈ n.data, c ≠ '/')
    (hroot : hasDS (rstripSlash root).data = false)
    (fuel : Nat) (D : List DiscoveredPath) (V : List String)
    (hrun : bruteScanAux lsOut dirOut fuel [rstripSlash root] [] [] = some (D, V)) :
    brute_scan_fs lsOut dirOut fuel root = some D ∧
    ∀ d ∈ D, d.path ≠ root ∧ d.path ≠ rstripSlash root ∧
      (rstripSlash root).data <+: d.path.data ∧
      ∃ p, p ∈ V ∧ ∃ n ∈ list_directory lsOut p, d.path = joinPath p n := by
  have hrootGood : goodUnder (rstripSlash root) (rstripSlash root) :=
    ⟨List.prefix_refl _, hroot, rstripSlash_getLast root⟩
  refine ⟨by simp [brute_scan_fs, hrun], ?_⟩
  intro d hd
  rcases bruteScanAux_sound lsOut dirOut _ _ _ _ _ _ hrun d hd with hnil | ⟨p, hpV, hco⟩
  · simp at hnil
  · obtain ⟨n, hn, hdEq, -⟩ := hco
    have hpGood : goodUnder (rstripSlash root) p := by
      refine bruteScanAux_visited_good lsOut dirOut (rstripSlash root) hnames _ _ _ _ _ _
        hrun ?_ ?_ p hpV
      · intro q hq
        rcases List.mem_singleton.1 hq with rfl
        exact hrootGood
      · intro q hq
        simp at hq
    have hjg := joinPath_good hpGood (list_directory_mem_ne hn) (hnames p n hn)
    have hpath : d.path = joinPath p n := by rw [hdEq]
    have hlen : (rstripSlash root).data.length < d.path.data.length := by
      have h1 : (rstripSlash root).data.length ≤ p.data.length := hpGood.1.length_le
      have h2 : d.path.data.length = p.data.length + 1 + n.data.length := by
        rw [hpath, hjg.1]
        simp
        omega
      omega
    have hneStrip : d.path ≠ rstripSlash root := by
      intro he
      rw [he] at hlen
      omega
    refine ⟨?_, hneStrip, ?_, p, hpV, n, hn, hpath⟩
    · rcases rstripSlash_cases root with he | hlast
      · rw [← he]
        exact hneStrip
      · intro heq
        have hdGood : goodUnder (rstripSlash root) d.path := by
          rw [hpath]
          exact hjg.2
        exact hdGood.2.2 (by rw [heq, hlast])
    · have hdGood : goodUnder (rstripSlash root) d.path := by
        rw [hpath]
        exact hjg.2
      exact hdGood.1

/-- Counterexample for claim C10 as stated: with a listing line that is a bare
slash, the joined child path collapses back to the root "/" and the returned
list contains the root path itself. -/
theorem claim_C10_counterexample :
    brute_scan_fs cxRootLs cxFileDir 2 "/" = some [⟨"/", false⟩] ∧
    (⟨"/", false⟩ : DiscoveredPath).path = "/" := by decide

/-- Witness for the amended claim C10, at the concrete ordinary-child tree. -/
theorem claim_C10_witness :
    (⟨"/r/h", false⟩ : DiscoveredPath).path ≠ "/r" := by
  have hnames : ∀ p : String, ∀ n ∈ list_directory cxOrdLs p, ∀ c ∈ n.data, c ≠ '/' := by
    intro p n hn
    by_cases hp : p = "/r"
    · subst hp
      have he : list_directory cxOrdLs "/r" = ["h"] := by decide
      rw [he] at hn
      rcases List.mem_singleton.1 hn with rfl
      intro c hc
      rcases List.mem_singleton.1 hc with rfl
      decide
    · have hout : cxOrdLs p = "" := by simp [cxOrdLs, hp]
      simp [list_directory, hout] at hn
  have h := claim_C10_no_root_in_result cxOrdLs cxFileDir "/r" hnames (by decide) 3
    [⟨"/r/h", false⟩] ["/r"] (by decide)
  exact (h.2 ⟨"/r/h", false⟩ (by decide)).1

/-! Archive serializer lemmas and claim C3. -/

theorem leDecode_u64le {n : Nat} (h : n < 2 ^ 64) : leDecode (u64le n) = n := by
  have e : leDecode (u64le n) =
      n % 256 + 256 * (n / 256 % 256 + 256 * (n / 256 / 256 % 256 +
        256 * (n / 256 / 256 / 256 % 256 + 256 * (n / 256 / 256 / 256 / 256 % 256 +
        256 * (n / 256 / 256 / 256 / 256 / 256 % 256 +
        256 * (n / 256 / 256 / 256 / 256 / 256 / 256 % 256 +
        256 * (n / 256 / 256 / 256 / 256 / 256 / 256 / 256 % 256 + 256 * 0))))))) := rfl
  rw [e]
  omega

theorem sliceBySizes_payload (localFs : String → Option (List Nat)) :
    ∀ manifest : List ManifestEntry,
      (∀ e ∈ manifest, e.local_path ≠ "" ∧
        ∃ bytes, localFs e.local_path = some bytes ∧ e.size = bytes.length) →
      sliceBySizes (payloadBytes localFs manifest) (manifest.map (fun e => e.size)) =
        manifest.map (fun e => (localFs e.local_path).getD []) := by
  intro manifest
  induction manifest with
  | nil => intro _; rfl
  | cons e rest ih =>
    intro hyp
    obtain ⟨hne, bytes, hfs, hsize⟩ := hyp e (by simp)
    have hneb : (e.local_path != "") = true := by simpa using hne
    have hpay : payloadBytes localFs (e :: rest) = bytes ++ payloadBytes localFs rest := by
      simp [payloadBytes, hneb, hfs]
    rw [List.map_cons, List.map_cons, sliceBySizes, hpay, hsize,
      List.take_left bytes, List.drop_left bytes, ih (fun x hx => hyp x (by simp [hx])),
      hfs]
    rfl

/-- CLAIM C3.  For a manifest whose local files all exist and whose recorded
sizes equal the exact byte lengths, archive_to_bin writes the 8-byte magic,
the manifest byte length as little-endian u64, the manifest bytes, then the
file payloads in manifest order with no separators; reading the header back
and slicing the payload by the recorded sizes reconstructs every file's bytes
exactly. -/
theorem claim_C3_archive_round_trip (localFs : String → Option (List Nat))
    (manifestJson : List Nat) (manifest : List ManifestEntry)
    (hlen : manifestJson.length < 2 ^ 64)
    (hfiles : ∀ e ∈ manifest, e.local_path ≠ "" ∧
      ∃ bytes, localFs e.local_path = some bytes ∧ e.size = bytes.length) :
    (archive_to_bin localFs manifestJson manifest).take 8 = MAGIC ∧
    leDecode (((archive_to_bin localFs manifestJson manifest).drop 8).take 8) =
      manifestJson.length ∧
    ((archive_to_bin localFs manifestJson manifest).drop 16).take manifestJson.length =
      manifestJson ∧
    sliceBySizes
        (((archive_to_bin localFs manifestJson manifest).drop 16).drop manifestJson.length)
        (manifest.map (fun e => e.size)) =
      manifest.map (fun e => (localFs e.local_path).getD []) := by
  have hM : MAGIC.length = 8 := rfl
  have hU : (u64le manifestJson.length).length = 8 := rfl
  have hbin : archive_to_bin localFs manifestJson manifest =
      MAGIC ++ (u64le manifestJson.length ++
        (manifestJson ++ payloadBytes localFs manifest)) := by
    simp [archive_to_bin]
  have hdrop8 : (archive_to_bin localFs manifestJson manifest).drop 8 =
      u64le manifestJson.length ++ (manifestJson ++ payloadBytes localFs manifest) := by
    rw [hbin, ← hM, List.drop_left]
  have hdrop16 : (archive_to_bin localFs manifestJson manifest).drop 16 =
      manifestJson ++ payloadBytes localFs manifest := by
    rw [hbin, show (16 : Nat) = (MAGIC ++ u64le manifestJson.length).length from rfl,
      ← List.append_assoc, List.drop_left]
  refine ⟨?_, ?_, ?_, ?_⟩
  · rw [hbin, ← hM, List.take_left]
  · rw [hdrop8, ← hU, List.take_left, leDecode_u64le hlen]
  · rw [hdrop16, List.take_left]
  · rw [hdrop16, List.drop_left, sliceBySizes_payload localFs manifest hfiles]

/-- Witness for claim C3 at a concrete two-entry manifest. -/
theorem claim_C3_witness :
    sliceBySizes
        (((archive_to_bin wFs4 [123]
            ([⟨"/r/a", "dst/r/a", 2, 7, ⟨some "h", some "h", some "h"⟩, "pulled"⟩] :
              List ManifestEntry)).drop 16).drop 1)
        (([⟨"/r/a", "dst/r/a", 2, 7, ⟨some "h", some "h", some "h"⟩, "pulled"⟩] :
            List ManifestEntry).map (fun e => e.size)) =
      [[1, 2]] := by
  have h := claim_C3_archive_round_trip wFs4 [123]
    [⟨"/r/a", "dst/r/a", 2, 7, ⟨some "h", some "h", some "h"⟩, "pulled"⟩]
    (by decide)
    (by
      intro e he
      rcases List.mem_singleton.1 he with rfl
      exact ⟨by decide, [1, 2], by decide, by decide⟩)
  exact h.2.2.2.trans (by decide)

/-! Extraction lemmas and claim C4. -/

theorem extractFromItems_map_remote (localFs : String → Option (List Nat))
    (mtimeFs : String → Nat) (md5f sha1f sha256f : List Nat → String)
    (pullOut : String → String) (dest_root : String) :
    ∀ items : List DiscoveredPath,
      (extractFromItems localFs mtimeFs md5f sha1f sha256f pullOut dest_root items).map
          (fun m => m.remote_path) =
        (items.filter (fun e => !e.is_dir)).map (fun e => e.path) := by
  intro items
  induction items with
  | nil => rfl
  | cons e rest ih =>
    cases hd : e.is_dir <;>
      simp [extractFromItems, List.filter_cons, hd, ih, extractEntry]

theorem extractFromItems_hashes (localFs : String → Option (List Nat))
    (mtimeFs : String → Nat) (md5f sha1f sha256f : List Nat → String)
    (pullOut : String → String) (dest_root : String) :
    ∀ items : List DiscoveredPath,
      ∀ m ∈ extractFromItems localFs mtimeFs md5f sha1f sha256f pullOut dest_root items,
        ((m.hashes.md5 = none ∧ m.hashes.sha1 = none ∧ m.hashes.sha256 = none) ↔
          localFs m.local_path = none) := by
  intro items
  induction items with
  | nil => intro m hm; simp [extractFromItems] at hm
  | cons e rest ih =>
    intro m hm
    cases hd : e.is_dir
    · rw [extractFromItems] at hm
      rw [hd] at hm
      simp only [Bool.false_eq_true, if_false, List.mem_cons] at hm
      rcases hm with rfl | hm
      · show (_ ∧ _ ∧ _) ↔ _
        simp only [extractEntry]
        cases hfs : localFs (osPathJoin dest_root (lstripSlash e.path)) with
        | none => simp [hfs]
        | some bytes => simp [hfs, compute_hashes]
      · exact ih m hm
    · rw [extractFromItems] at hm
      rw [hd] at hm
      simp only [if_true] at hm
      exact ih m hm

theorem extractFromItems_pull_ind (localFs : String → Option (List Nat))
    (mtimeFs : String → Nat) (md5f sha1f sha256f : List Nat → String)
    (pullOut pullOut' : String → String) (dest_root : String) :
    ∀ items : List DiscoveredPath,
      (extractFromItems localFs mtimeFs md5f sha1f sha256f pullOut' dest_root items).map
          (fun m => (m.remote_path, m.local_path, m.size, m.mtime, m.hashes)) =
        (extractFromItems localFs mtimeFs md5f sha1f sha256f pullOut dest_root items).map
          (fun m => (m.remote_path, m.local_path, m.size, m.mtime, m.hashes)) := by
  intro items
  induction items with
  | nil => rfl
  | cons e rest ih =>
    cases hd : e.is_dir <;> simp [extractFromItems, hd, ih, extractEntry]

/-- CLAIM C4.  brute_extract_folder appends exactly one manifest entry per
discovered non-directory path, none for directories, in discovery order and
independently of the pull transcript; an entry's three hash fields are all
null exactly when the local file does not exist after the pull attempt. -/
theorem claim_C4_extract_manifest (lsOut dirOut : String → String)
    (localFs : String → Option (List Nat)) (mtimeFs : String → Nat)
    (md5f sha1f sha256f : List Nat → String) (pullOut : String → String)
    (fuel : Nat) (remote_root dest_root : String) (items : List DiscoveredPath)
    (hscan : brute_scan_fs lsOut dirOut fuel (rstripSlash remote_root) = some items) :
    brute_extract_folder lsOut dirOut localFs mtimeFs md5f sha1f sha256f pullOut fuel
        remote_root dest_root =
      some (extractFromItems localFs mtimeFs md5f sha1f sha256f pullOut dest_root items) ∧
    (extractFromItems localFs mtimeFs md5f sha1f sha256f pullOut dest_root items).map
        (fun m => m.remote_path) =
      (items.filter (fun e => !e.is_dir)).map (fun e => e.path) ∧
    (∀ m ∈ extractFromItems localFs mtimeFs md5f sha1f sha256f pullOut dest_root items,
      ((m.hashes.md5 = none ∧ m.hashes.sha1 = none ∧ m.hashes.sha256 = none) ↔
        localFs m.local_path = none)) ∧
    (∀ pullOut' : String → String,
      (extractFromItems localFs mtimeFs md5f sha1f sha256f pullOut' dest_root items).map
          (fun m => (m.remote_path, m.local_path, m.size, m.mtime, m.hashes)) =
        (extractFromItems localFs mtimeFs md5f sha1f sha256f pullOut dest_root items).map
          (fun m => (m.remote_path, m.local_path, m.size, m.mtime, m.hashes))) := by
  refine ⟨?_, ?_, ?_, ?_⟩
  · simp [brute_extract_folder, hscan]
  · exact extractFromItems_map_remote localFs mtimeFs md5f sha1f sha256f pullOut
      dest_root items
  · exact extractFromItems_hashes localFs mtimeFs md5f sha1f sha256f pullOut
      dest_root items
  · intro pullOut'
    exact extractFromItems_pull_ind localFs mtimeFs md5f sha1f sha256f pullOut pullOut'
      dest_root items

/-- Witness for claim C4 at a concrete two-leaf tree in which one pull
succeeded and one did not. -/
theorem claim_C4_witness :
    (extractFromItems wFs4 wMt wHash wHash wHash wPull "dst"
        [⟨"/r/a", false⟩, ⟨"/r/b", false⟩]).map (fun m => m.remote_path) =
      ["/r/a", "/r/b"] := by
  have h := claim_C4_extract_manifest wLs4 cxFileDir wFs4 wMt wHash wHash wHash wPull 3
    "/r" "dst" [⟨"/r/a", false⟩, ⟨"/r/b", false⟩] (by decide)
  rw [h.2.1]
  decide

/-! Shell transport: claim C8. -/

/-- CLAIM C8 (amended).  On completion run_adb returns the decoded, stripped
stdout if that is non-empty, else the decoded, stripped stderr — which is the
empty string when both streams strip to empty, not a fixed diagnostic; the
fixed diagnostic strings are produced only by the timeout, tool-missing and
generic-exception branches. -/
theorem claim_C8_transport_result (decodeUtf8 : List Nat → Option String)
    (decodeLatin1 : List Nat → String) :
    (∀ o e : List Nat,
      run_adb decodeUtf8 decodeLatin1 (.completed o e) =
        (if decodeStream decodeUtf8 decodeLatin1 o ≠ "" then
          decodeStream decodeUtf8 decodeLatin1 o
         else decodeStream decodeUtf8 decodeLatin1 e)) ∧
    (∀ o e : List Nat,
      (run_adb decodeUtf8 decodeLatin1 (.completed o e) = "" ↔
        decodeStream decodeUtf8 decodeLatin1 o = "" ∧
          decodeStream decodeUtf8 decodeLatin1 e = "")) ∧
    run_adb decodeUtf8 decodeLatin1 .timedOut = "adb command timed out." ∧
    run_adb decodeUtf8 decodeLatin1 .toolMissing = "adb not found." ∧
    (∀ msg, run_adb decodeUtf8 decodeLatin1 (.failed msg) = "adb error: " ++ msg) := by
  refine ⟨?_, ?_, rfl, rfl, fun msg => rfl⟩
  · intro o e
    by_cases h : decodeStream decodeUtf8 decodeLatin1 o = ""
    · simp [run_adb, h]
    · simp [run_adb, h]
  · intro o e
    by_cases h : decodeStream decodeUtf8 decodeLatin1 o = ""
    · simp [run_adb, h]
    · simp [run_adb, h]

/-- Counterexample for claim C8 as stated: a completed command with both
streams empty yields the empty string, not any fixed diagnostic. -/
theorem claim_C8_counterexample :
    run_adb (fun _ => some "") (fun _ => "") (.completed [] []) = "" ∧
    "" ≠ "adb command timed out." ∧ "" ≠ "adb not found." ∧
    pyStartsWith "adb error: " "" = false := by decide

/-! Parser claims. -/

/-- CLAIM C7.  On the literal two-row dump, parse_sms_text returns exactly two
records with the stated addresses, epoch strings and bodies, and each date
field is the formatted timestamp of the epoch value (seconds scale after the
millisecond division), not "Unknown". -/
theorem claim_C7_sms_literal (fmt : Int → String)
    (hfmt : ∀ n : Int, fmt n ≠ "Unknown") :
    parse_sms_text fmt
        "Row: 0 address=+15551234567, date=1700000000000, body=Hello there\nRow: 1 address=+15559876543, date=1700000100000, body=See you soon" =
      [⟨"+15551234567", "1700000000000", fmt 1700000000, "Hello there"⟩,
       ⟨"+15559876543", "1700000100000", fmt 1700000100, "See you soon"⟩] ∧
    fmt 1700000000 ≠ "Unknown" ∧ fmt 1700000100 ≠ "Unknown" :=
  ⟨rfl, hfmt 1700000000, hfmt 1700000100⟩

/-- Witness for claim C7 at a concrete formatting function. -/
theorem claim_C7_witness :
    parse_sms_text (fun _ => "2023-11-14 22:13:20")
        "Row: 0 address=+15551234567, date=1700000000000, body=Hello there\nRow: 1 address=+15559876543, date=1700000100000, body=See you soon" =
      [⟨"+15551234567", "1700000000000", "2023-11-14 22:13:20", "Hello there"⟩,
       ⟨"+15559876543", "1700000100000", "2023-11-14 22:13:20", "See you soon"⟩] := by
  have h : ("2023-11-14 22:13:20" : String) ≠ "Unknown" := by decide
  exact (claim_C7_sms_literal (fun _ => "2023-11-14 22:13:20") (fun _ => h)).1

/-! No-match lemmas: text without any '=' matches no strategy of any parser
(every pattern requires a literal '='). -/

theorem litAt_mem_of_true {lit cs : List Char} (h : litAt lit cs = true) :
    ∀ c ∈ lit, c ∈ cs := by
  induction lit generalizing cs with
  | nil => intro c hc; simp at hc
  | cons a as ih =>
    cases cs with
    | nil => simp [litAt] at h
    | cons b bs =>
      rw [litAt, Bool.and_eq_true] at h
      intro c hc
      rcases List.mem_cons.1 hc with rfl | hc
      · have : c = b := by simpa using h.1
        rw [this]
        exact List.mem_cons_self _ _
      · exact List.mem_cons_of_mem _ (ih h.2 c hc)

theorem substrB_mem {pat cs : List Char} (h : substrB pat cs = true) :
    ∀ c ∈ pat, c ∈ cs := by
  induction cs with
  | nil =>
    rw [substrB] at h
    intro c hc
    exact litAt_mem_of_true h c hc
  | cons b bs ih =>
    rw [substrB, Bool.or_eq_true] at h
    rcases h with h | h
    · exact litAt_mem_of_true h
    · exact fun c hc => List.mem_cons_of_mem _ (ih h c hc)

theorem mem_of_mem_dropWhile {q : Char → Bool} {cs : List Char} {c : Char}
    (h : c ∈ cs.dropWhile q) : c ∈ cs :=
  (List.dropWhile_sublist q).subset h

theorem commaLitDrop_cons (lit : List Char) (n : Nat) (c : Char) (cs : List Char) :
    commaLitDrop lit n (c :: cs) =
      (if c = ',' then
        if litAt lit (cs.dropWhile isPySpace) then some ((cs.dropWhile isPySpace).drop n)
        else none
      else none) := rfl

theorem commaCiKeyDrop_cons (key : List Char) (c : Char) (cs : List Char) :
    commaCiKeyDrop key (c :: cs) =
      (if c = ',' then
        if ciAt key (cs.dropWhile isPySpace) &&
            litAt ['='] ((cs.dropWhile isPySpace).drop key.length) then
          some (((cs.dropWhile isPySpace).drop key.length).drop 1)
        else none
      else none) := rfl

theorem commaLitDrop_none (lit : List Char) (hlit : '=' ∈ lit) {cs : List Char}
    (h : '=' ∉ cs) (n : Nat) : commaLitDrop lit n cs = none := by
  cases cs with
  | nil => rfl
  | cons c cs1 =>
    rw [commaLitDrop_cons]
    by_cases hc : c = ','
    · rw [if_pos hc]
      have hfalse : litAt lit (cs1.dropWhile isPySpace) = false := by
        cases hl : litAt lit (cs1.dropWhile isPySpace)
        · rfl
        · have h1 : '=' ∈ cs1.dropWhile isPySpace := litAt_mem_of_true hl '=' hlit
          exact absurd (List.mem_cons_of_mem _ (mem_of_mem_dropWhile h1)) h
      rw [hfalse]
      rfl
    · rw [if_neg hc]

theorem smsTailMatch_none {cs : List Char} (h : '=' ∉ cs) : smsTailMatch cs = none := by
  simp only [smsTailMatch,
    commaLitDrop_none "date=".data (by decide) h 5]

theorem findSplit_none {α : Type} {tail : List Char → Option α} :
    ∀ (cs acc : List Char), (∀ cs2, cs2 <:+ cs → tail cs2 = none) →
      findSplit tail acc cs = none := by
  intro cs
  induction cs with
  | nil =>
    intro acc h
    rw [findSplit, h [] List.nil_suffix]
  | cons c cs2 ih =>
    intro acc h
    rw [findSplit, h (c :: cs2) (List.suffix_refl _)]
    exact ih (c :: acc) (fun x hx => h x (hx.trans (List.suffix_cons c cs2)))

theorem findSplitNoNl_none {α : Type} {tail : List Char → Option α} :
    ∀ (cs acc : List Char), (∀ cs2, cs2 <:+ cs → tail cs2 = none) →
      findSplitNoNl tail acc cs = none := by
  intro cs
  induction cs with
  | nil =>
    intro acc h
    rw [findSplitNoNl, h [] List.nil_suffix]
  | cons c cs2 ih =>
    intro acc h
    rw [findSplitNoNl, h (c :: cs2) (List.suffix_refl _)]
    by_cases hc : c = '\n'
    · simp [hc]
    · simp only [hc, if_false]
      exact ih (c :: acc) (fun x hx => h x (hx.trans (List.suffix_cons c cs2)))

theorem mem_of_suffix {cs2 cs : List Char} (hs : cs2 <:+ cs) {c : Char}
    (h : c ∈ cs2) : c ∈ cs := hs.sublist.subset h

theorem smsScan1_no_eq (fmt : Int → String) :
    ∀ (fuel : Nat) (cs : List Char), '=' ∉ cs → smsScan1 fmt fuel cs = [] := by
  intro fuel
  induction fuel with
  | zero => intro cs _; rfl
  | succ fuel ih =>
    intro cs h
    cases cs with
    | nil => rfl
    | cons c cs2 =>
      have hfalse : litAt "address=".data (c :: cs2) = false := by
        cases hl : litAt "address=".data (c :: cs2)
        · rfl
        · exact absurd (litAt_mem_of_true hl '=' (by decide)) h
      rw [smsScan1, hfalse]
      · simp only [Bool.false_eq_true, if_false]
        exact ih _ (fun hm => h (List.mem_cons_of_mem _ (by simpa using hm)))
      · simp

theorem findLit_none {lit : List Char} (hlit : '=' ∈ lit) :
    ∀ cs : List Char, '=' ∉ cs → findLit lit cs = none := by
  intro cs
  induction cs with
  | nil =>
    intro h
    rw [findLit]
    cases hl : litAt lit []
    · rfl
    · exact absurd (litAt_mem_of_true hl '=' hlit) (by simp)
  | cons c cs2 ih =>
    intro h
    rw [findLit]
    cases hl : litAt lit (c :: cs2)
    · simp only [Bool.false_eq_true, if_false]
      exact ih (fun hm => h (List.mem_cons_of_mem _ hm))
    · exact absurd (litAt_mem_of_true hl '=' hlit) h

theorem slTailMatch_none {k2 : List Char} (hk : '=' ∈ k2) {cs : List Char}
    (h : '=' ∉ cs) : slTailMatch k2 cs = none := by
  cases cs with
  | nil => rfl
  | cons c cs1 =>
    rw [slTailMatch]
    by_cases hc : c = ','
    · rw [if_pos hc]
      have hfalse : litAt k2 (cs1.dropWhile isPySpace) = false := by
        cases hl : litAt k2 (cs1.dropWhile isPySpace)
        · rfl
        · have h1 : '=' ∈ cs1.dropWhile isPySpace := litAt_mem_of_true hl '=' hk
          exact absurd (List.mem_cons_of_mem _ (mem_of_mem_dropWhile h1)) h
      simp [hfalse]
    · rw [if_neg hc]

theorem slSearch_none {k1 k2 k3 : List Char} (hk1 : '=' ∈ k1)
    (stop : List Char → Bool) {line : List Char} (h : '=' ∉ line) :
    slSearch k1 k2 k3 stop line = none := by
  unfold slSearch
  rw [findLit_none hk1 line h]

theorem smsPatLine_none (fmt : Int → String) {k1 : List Char} (k2 k3 : List Char)
    (hk1 : '=' ∈ k1) (stop : List Char → Bool) {line : List Char} (h : '=' ∉ line) :
    smsPatLine fmt k1 k2 k3 stop line = [] := by
  unfold smsPatLine
  rw [slSearch_none hk1 stop h]

theorem linesConcat_nil {α : Type} {f : List Char → List α} :
    ∀ lines : List (List Char), (∀ l ∈ lines, f l = []) → linesConcat f lines = [] := by
  intro lines
  induction lines with
  | nil => intro _; rfl
  | cons l ls ih =>
    intro h
    rw [linesConcat, h l (by simp), ih (fun x hx => h x (by simp [hx]))]
    rfl

theorem pyFindPairs_no_eq :
    ∀ (fuel : Nat) (cs : List Char), '=' ∉ cs → pyFindPairs fuel cs = [] := by
  intro fuel
  induction fuel with
  | zero => intro cs _; rfl
  | succ fuel ih =>
    intro cs h
    cases cs with
    | nil => rfl
    | cons c cs2 =>
      have hfalse : litAt ['=']
          ((c :: cs2).drop ((c :: cs2).takeWhile wordChar).length) = false := by
        cases hl : litAt ['=']
            ((c :: cs2).drop ((c :: cs2).takeWhile wordChar).length)
        · rfl
        · have h1 : '=' ∈ (c :: cs2).drop ((c :: cs2).takeWhile wordChar).length :=
            litAt_mem_of_true hl '=' (by decide)
          exact absurd (List.drop_subset _ _ h1) h
      rw [pyFindPairs, hfalse]
      · simp only [Bool.and_false, Bool.false_eq_true, if_false]
        exact ih _ (fun hm => h (List.mem_cons_of_mem _ (by simpa using hm)))
      · simp

theorem smsStrat4Line_none (fmt : Int → String) {line : List Char}
    (h : '=' ∉ line) : smsStrat4Line fmt line = [] := by
  unfold smsStrat4Line
  split
  · rfl
  · rw [pyFindPairs_no_eq _ _ h]
    rfl

theorem smsStrat2Line_none (fmt : Int → String) {line : List Char} (h : '=' ∉ line) :
    smsStrat2Line fmt line = [] := by
  unfold smsStrat2Line
  split
  · exact smsPatLine_none fmt _ _ (by decide) _ h
  · rfl

theorem smsStrat3_none (fmt : Int → String) {lines : List (List Char)}
    (h : ∀ l ∈ lines, '=' ∉ l) : smsStrat3 fmt lines = [] := by
  unfold smsStrat3
  rw [linesConcat_nil lines (fun l hl => smsPatLine_none fmt _ _ (by decide) _ (h l hl)),
    linesConcat_nil lines (fun l hl => smsPatLine_none fmt _ _ (by decide) _ (h l hl)),
    linesConcat_nil lines (fun l hl => smsPatLine_none fmt _ _ (by decide) _ (h l hl))]
  rfl

theorem pySplitLines_nil : pySplitLines [] = [] := rfl

theorem pySplitLines_one (c : Char) :
    pySplitLines [c] = if isLineBreak c then [[]] else [[c]] := rfl

theorem pySplitLines_cr_nl (rest : List Char) :
    pySplitLines ('\r' :: '\n' :: rest) = [] :: pySplitLines rest := by
  rw [pySplitLines, if_pos ⟨rfl, rfl⟩]

theorem pySplitLines_break2 {c1 c2 : Char} (rest : List Char)
    (hno : ¬(c1 = '\r' ∧ c2 = '\n')) (hbr : isLineBreak c1 = true) :
    pySplitLines (c1 :: c2 :: rest) = [] :: pySplitLines (c2 :: rest) := by
  rw [pySplitLines, if_neg hno, if_pos hbr]

theorem pySplitLines_char2 {c1 : Char} (c2 : Char) (rest : List Char)
    (hbr : isLineBreak c1 = false) :
    pySplitLines (c1 :: c2 :: rest) =
      (match pySplitLines (c2 :: rest) with
       | [] => [[c1]]
       | l :: ls => (c1 :: l) :: ls) := by
  have hno : ¬(c1 = '\r' ∧ c2 = '\n') := by
    rintro ⟨rfl, -⟩
    simp [isLineBreak] at hbr
  rw [pySplitLines, if_neg hno, if_neg (by simp [hbr])]

theorem pySplitLines_chars_aux : ∀ n : Nat, ∀ cs : List Char, cs.length ≤ n →
    ∀ l ∈ pySplitLines cs, ∀ c ∈ l, c ∈ cs := by
  intro n
  induction n with
  | zero =>
    intro cs hlen l hl
    have hnil : cs = [] := List.eq_nil_of_length_eq_zero (Nat.le_zero.1 hlen)
    rw [hnil, pySplitLines_nil] at hl
    simp at hl
  | succ n ih =>
    intro cs hlen l hl c hc
    match cs, hl with
    | [], hl =>
      rw [pySplitLines_nil] at hl
      simp at hl
    | [c1], hl =>
      rw [pySplitLines_one] at hl
      split at hl
      · rcases List.mem_singleton.1 hl with rfl
        simp at hc
      · rcases List.mem_singleton.1 hl with rfl
        rcases List.mem_singleton.1 hc with rfl
        exact List.mem_cons_self _ _
    | c1 :: c2 :: rest, hl =>
      have hlen2 : (c2 :: rest).length ≤ n := by
        simp only [List.length_cons] at hlen ⊢
        omega
      have hlenr : rest.length ≤ n := by
        simp only [List.length_cons] at hlen
        omega
      by_cases hcr : c1 = '\r' ∧ c2 = '\n'
      · obtain ⟨rfl, rfl⟩ := hcr
        rw [pySplitLines_cr_nl] at hl
        rcases List.mem_cons.1 hl with rfl | hl
        · simp at hc
        · exact List.mem_cons_of_mem _ (List.mem_cons_of_mem _
            (ih rest hlenr l hl c hc))
      · by_cases hbr : isLineBreak c1 = true
        · rw [pySplitLines_break2 rest hcr hbr] at hl
          rcases List.mem_cons.1 hl with rfl | hl
          · simp at hc
          · exact List.mem_cons_of_mem _ (ih (c2 :: rest) hlen2 l hl c hc)
        · rw [pySplitLines_char2 c2 rest (by simpa using hbr)] at hl
          cases hres : pySplitLines (c2 :: rest) with
          | nil =>
            rw [hres] at hl
            simp only [List.mem_singleton] at hl
            rw [hl] at hc
            rcases List.mem_singleton.1 hc with rfl
            exact List.mem_cons_self _ _
          | cons l2 ls =>
            rw [hres] at hl
            rcases List.mem_cons.1 hl with rfl | hl
            · rcases List.mem_cons.1 hc with rfl | hc
              · exact List.mem_cons_self _ _
              · have hmem : l2 ∈ pySplitLines (c2 :: rest) := by rw [hres]; simp
                exact List.mem_cons_of_mem _ (ih (c2 :: rest) hlen2 l2 hmem c hc)
            · have hmem : l ∈ pySplitLines (c2 :: rest) := by rw [hres]; simp [hl]
              exact List.mem_cons_of_mem _ (ih (c2 :: rest) hlen2 l hmem c hc)

theorem pySplitLines_chars : ∀ cs : List Char, ∀ l ∈ pySplitLines cs, ∀ c ∈ l, c ∈ cs :=
  fun cs => pySplitLines_chars_aux cs.length cs le_rfl

theorem smsCore_no_eq (fmt : Int → String) {text : List Char} (h : '=' ∉ text) :
    smsCore fmt text = [] := by
  have hlines : ∀ l ∈ pySplitLines text, '=' ∉ l :=
    fun l hl hm => h (pySplitLines_chars text l hl '=' hm)
  have h1 := smsScan1_no_eq fmt (text.length + 1) text h
  have h2 := linesConcat_nil (f := smsStrat2Line fmt) (pySplitLines text)
    (fun l hl => smsStrat2Line_none fmt (hlines l hl))
  have h3 := smsStrat3_none fmt hlines
  have h4 := linesConcat_nil (f := smsStrat4Line fmt) (pySplitLines text)
    (fun l hl => smsStrat4Line_none fmt (hlines l hl))
  simp [smsCore, h1, h2, h3, h4]

theorem joinNL_nil : joinNL [] = [] := rfl

theorem joinNL_one (l : List Char) : joinNL [l] = l := rfl

theorem joinNL_cons2 (l l2 : List Char) (ls : List (List Char)) :
    joinNL (l :: l2 :: ls) = l ++ '\n' :: joinNL (l2 :: ls) := rfl

theorem joinNL_chars : ∀ ls : List (List Char), ∀ c ∈ joinNL ls,
    (∃ l ∈ ls, c ∈ l) ∨ c = '\n' := by
  intro ls
  induction ls with
  | nil => intro c hc; rw [joinNL_nil] at hc; simp at hc
  | cons l ls ih =>
    intro c hc
    cases ls with
    | nil =>
      rw [joinNL_one] at hc
      exact Or.inl ⟨l, by simp, hc⟩
    | cons l2 ls2 =>
      rw [joinNL_cons2] at hc
      rcases List.mem_append.1 hc with hc | hc
      · exact Or.inl ⟨l, by simp, hc⟩
      · rcases List.mem_cons.1 hc with rfl | hc
        · exact Or.inr rfl
        · rcases ih c hc with ⟨l3, hl3, hcl3⟩ | rfl
          · exact Or.inl ⟨l3, by simp [hl3], hcl3⟩
          · exact Or.inr rfl

theorem stripCommentLines_no_eq {t : String} (h : '=' ∉ t.data) :
    '=' ∉ (stripCommentLines t).data := by
  intro hm
  rcases joinNL_chars _ '=' hm with ⟨l, hl, hcl⟩ | heq
  · have hl2 : l ∈ pySplitLines t.data := (List.mem_filter.1 hl).1
    exact h (pySplitLines_chars t.data l hl2 '=' hcl)
  · simp at heq

theorem callsKeyAt_none {cs : List Char} (h : '=' ∉ cs) :
    ∀ keys : List (List Char), callsKeyAt keys cs = none := by
  intro keys
  induction keys with
  | nil => rfl
  | cons k ks ih =>
    have hfalse : litAt ['='] (cs.drop k.length) = false := by
      cases hl : litAt ['='] (cs.drop k.length)
      · rfl
      · exact absurd (List.drop_subset _ _ (litAt_mem_of_true hl '=' (by decide))) h
    rw [callsKeyAt, hfalse]
    simp only [Bool.and_false, Bool.false_eq_true, if_false]
    exact ih

theorem callsScanP_no_eq (fmt : Int → String) (keys1 : List (List Char))
    (k2 k3 k4 : List Char) :
    ∀ (fuel : Nat) (cs : List Char), '=' ∉ cs →
      callsScanP fmt keys1 k2 k3 k4 fuel cs = [] := by
  intro fuel
  induction fuel with
  | zero => intro cs _; rfl
  | succ fuel ih =>
    intro cs h
    cases cs with
    | nil => rfl
    | cons c cs2 =>
      rw [callsScanP, callsKeyAt_none h keys1]
      · exact ih _ (fun hm => h (List.mem_cons_of_mem _ (by simpa using hm)))
      · simp

theorem callsStrat2Line_none (fmt : Int → String) {line : List Char}
    (h : '=' ∉ line) : callsStrat2Line fmt line = [] := by
  have hfalse : substrB "duration=".data line = false := by
    cases hl : substrB "duration=".data line
    · rfl
    · exact absurd (substrB_mem hl '=' (by decide)) h
  unfold callsStrat2Line
  rw [hfalse]
  rfl

theorem callsStrat4Line_none (fmt : Int → String) {line : List Char}
    (h : '=' ∉ line) : callsStrat4Line fmt line = [] := by
  unfold callsStrat4Line
  split
  · rfl
  · rw [pyFindPairs_no_eq _ _ h]
    rfl

theorem callsCore_no_eq (fmt : Int → String) {text : List Char} (h : '=' ∉ text) :
    callsCore fmt text = [] := by
  have hlines : ∀ l ∈ pySplitLines text, '=' ∉ l :=
    fun l hl hm => h (pySplitLines_chars text l hl '=' hm)
  have h1 := callsScanP_no_eq fmt ["name".data, "cached_name".data] "number".data
    "duration".data "date".data (text.length + 1) text h
  have h2 := linesConcat_nil (f := callsStrat2Line fmt) (pySplitLines text)
    (fun l hl => callsStrat2Line_none fmt (hlines l hl))
  have h3 := callsScanP_no_eq fmt ["caller_name".data] "phone_number".data
    "call_duration".data "timestamp".data (text.length + 1) text h
  have h4 := callsScanP_no_eq fmt ["contact".data] "number".data "duration".data
    "time".data (text.length + 1) text h
  have h5 := linesConcat_nil (f := callsStrat4Line fmt) (pySplitLines text)
    (fun l hl => callsStrat4Line_none fmt (hlines l hl))
  simp [callsCore, h1, h2, h3, h4, h5]

theorem contactsHead_mem {cs : List Char} {r : List Char}
    (h : contactsHead cs = some r) : '=' ∈ cs := by
  simp only [contactsHead] at h
  split at h
  · split at h
    · split at h
      · split at h
        · rename_i hcond
          rw [Bool.and_eq_true] at hcond
          have hl := hcond.2
          have h1 := litAt_mem_of_true hl '=' (by decide)
          have h2 := List.drop_subset _ _ h1
          have h3 := List.drop_subset _ _ h2
          have h4 := List.drop_subset _ _ h3
          have h5 := mem_of_mem_dropWhile h4
          exact List.drop_subset _ _ h5
        · exact absurd h (by simp)
      · exact absurd h (by simp)
    · exact absurd h (by simp)
  · exact absurd h (by simp)

theorem contactsScan_no_eq :
    ∀ (fuel : Nat) (cs : List Char), '=' ∉ cs → contactsScan fuel cs = [] := by
  intro fuel
  induction fuel with
  | zero => intro cs _; rfl
  | succ fuel ih =>
    intro cs h
    cases cs with
    | nil => rfl
    | cons c cs2 =>
      have hnone : contactsHead (c :: cs2) = none := by
        cases hh : contactsHead (c :: cs2) with
        | none => rfl
        | some r => exact absurd (contactsHead_mem hh) h
      rw [contactsScan, hnone]
      · exact ih _ (fun hm => h (List.mem_cons_of_mem _ (by simpa using hm)))
      · simp

/-- CLAIM C6.  For every input containing no '=' character — in particular
the empty string, blank text, and prose without any recognized field marker
(every field marker of every strategy contains '=') — each parser returns the
empty list; no parser can fail in any other way, as all are total functions. -/
theorem claim_C6_parser_degradation (fmt : Int → String) (t : String)
    (h : '=' ∉ t.data) :
    parse_sms_text fmt t = [] ∧ parse_calls_text fmt t = [] ∧
    parse_contacts_text t = [] ∧ parse_sms_text fmt "" = [] ∧
    parse_calls_text fmt "" = [] ∧ parse_contacts_text "" = [] := by
  have hstrip := stripCommentLines_no_eq h
  refine ⟨?_, ?_, ?_, rfl, rfl, rfl⟩
  · simp only [parse_sms_text]
    split
    · rfl
    · split
      · rfl
      · exact smsCore_no_eq fmt hstrip
  · simp only [parse_calls_text]
    split
    · rfl
    · split
      · rfl
      · exact callsCore_no_eq fmt hstrip
  · simp only [parse_contacts_text]
    split
    · rfl
    · exact contactsScan_no_eq _ _ h

/-- Witness for claim C6 at a concrete marker-free prose string. -/
theorem claim_C6_witness :
    parse_sms_text (fun _ => "ts") "Just some unrelated prose." = [] ∧
    parse_calls_text (fun _ => "ts") "Just some unrelated prose." = [] ∧
    parse_contacts_text "Just some unrelated prose." = [] := by
  have h := claim_C6_parser_degradation (fun _ => "ts") "Just some unrelated prose."
    (by decide)
  exact ⟨h.1, h.2.1, h.2.2.1⟩

/-! ### Trailing-newline algebra of the comment stripper (claim C5).

`stripCommentLines` is not idempotent: re-splitting the rejoined text loses a
trailing empty line, so the stripped text and the doubly stripped text agree
up to one trailing newline.  The lemmas below establish that relation, and
later ones show every SMS / call parsing stage is invariant under a trailing
newline, which yields parse(t) = parse(stripCommentLines t). -/

theorem pySplitLines_ne_nil : ∀ cs : List Char, cs ≠ [] → pySplitLines cs ≠ [] := by
  intro cs h
  match cs, h with
  | [c], _ =>
    rw [pySplitLines_one]
    split <;> simp
  | c1 :: c2 :: rest, _ =>
    by_cases hcr : c1 = '\r' ∧ c2 = '\n'
    · obtain ⟨rfl, rfl⟩ := hcr
      rw [pySplitLines_cr_nl]
      simp
    · by_cases hbr : isLineBreak c1 = true
      · rw [pySplitLines_break2 rest hcr hbr]
        simp
      · rw [pySplitLines_char2 c2 rest (by simpa using hbr)]
        cases pySplitLines (c2 :: rest) <;> simp

theorem pySplitLines_no_break_aux : ∀ n : Nat, ∀ cs : List Char, cs.length ≤ n →
    ∀ l ∈ pySplitLines cs, ∀ c ∈ l, isLineBreak c = false := by
  intro n
  induction n with
  | zero =>
    intro cs hlen l hl
    have hnil : cs = [] := List.eq_nil_of_length_eq_zero (Nat.le_zero.1 hlen)
    rw [hnil, pySplitLines_nil] at hl
    simp at hl
  | succ n ih =>
    intro cs hlen l hl c hc
    match cs, hl with
    | [], hl =>
      rw [pySplitLines_nil] at hl
      simp at hl
    | [c1], hl =>
      rw [pySplitLines_one] at hl
      by_cases hbr : isLineBreak c1 = true
      · rw [if_pos hbr] at hl
        rcases List.mem_singleton.1 hl with rfl
        simp at hc
      · rw [if_neg hbr] at hl
        rcases List.mem_singleton.1 hl with rfl
        rcases List.mem_singleton.1 hc with rfl
        simpa using hbr
    | c1 :: c2 :: rest, hl =>
      have hlen2 : (c2 :: rest).length ≤ n := by
        simp only [List.length_cons] at hlen ⊢
        omega
      have hlenr : rest.length ≤ n := by
        simp only [List.length_cons] at hlen
        omega
      by_cases hcr : c1 = '\r' ∧ c2 = '\n'
      · obtain ⟨rfl, rfl⟩ := hcr
        rw [pySplitLines_cr_nl] at hl
        rcases List.mem_cons.1 hl with rfl | hl
        · simp at hc
        · exact ih rest hlenr l hl c hc
      · by_cases hbr : isLineBreak c1 = true
        · rw [pySplitLines_break2 rest hcr hbr] at hl
          rcases List.mem_cons.1 hl with rfl | hl
          · simp at hc
          · exact ih (c2 :: rest) hlen2 l hl c hc
        · rw [pySplitLines_char2 c2 rest (by simpa using hbr)] at hl
          cases hres : pySplitLines (c2 :: rest) with
          | nil =>
            rw [hres] at hl
            simp only [List.mem_singleton] at hl
            rw [hl] at hc
            rcases List.mem_singleton.1 hc with rfl
            simpa using hbr
          | cons l2 ls =>
            rw [hres] at hl
            rcases List.mem_cons.1 hl with rfl | hl
            · rcases List.mem_cons.1 hc with rfl | hc
              · simpa using hbr
              · have hmem : l2 ∈ pySplitLines (c2 :: rest) := by rw [hres]; simp
                exact ih (c2 :: rest) hlen2 l2 hmem c hc
            · have hmem : l ∈ pySplitLines (c2 :: rest) := by rw [hres]; simp [hl]
              exact ih (c2 :: rest) hlen2 l hmem c hc

theorem pySplitLines_no_break : ∀ cs : List Char, ∀ l ∈ pySplitLines cs, ∀ c ∈ l,
    isLineBreak c = false :=
  fun cs => pySplitLines_no_break_aux cs.length cs le_rfl

theorem pySplitLines_single : ∀ l : List Char, l ≠ [] →
    (∀ c ∈ l, isLineBreak c = false) → pySplitLines l = [l] := by
  intro l
  induction l with
  | nil => intro h _; exact absurd rfl h
  | cons c1 rest ih =>
    intro _ hbf
    cases rest with
    | nil =>
      rw [pySplitLines_one, if_neg (by simp [hbf c1 (by simp)])]
    | cons c2 rest2 =>
      rw [pySplitLines_char2 c2 rest2 (hbf c1 (by simp)),
        ih (by simp) (fun c hc => hbf c (List.mem_cons_of_mem _ hc))]

theorem pySplitLines_join_cons : ∀ (l : List Char), (∀ c ∈ l, isLineBreak c = false) →
    ∀ X : List Char, pySplitLines (l ++ '\n' :: X) = l :: pySplitLines X := by
  intro l
  induction l with
  | nil =>
    intro _ X
    rw [List.nil_append]
    cases X with
    | nil =>
      rw [pySplitLines_one, if_pos (by decide)]
      rfl
    | cons x xs =>
      rw [pySplitLines_break2 xs (fun hc => absurd hc.1 (by decide)) (by decide)]
  | cons c1 rest ih =>
    intro hbf X
    rw [List.cons_append]
    cases hsh : rest ++ '\n' :: X with
    | nil => exact absurd hsh (by simp)
    | cons c2 r2 =>
      rw [pySplitLines_char2 c2 r2 (hbf c1 (by simp)), ← hsh,
        ih (fun c hc => hbf c (List.mem_cons_of_mem _ hc)) X]

theorem joinNL_append_empty : ∀ ls : List (List Char), ls ≠ [] →
    joinNL (ls ++ [[]]) = joinNL ls ++ ['\n'] := by
  intro ls
  induction ls with
  | nil => intro h; exact absurd rfl h
  | cons l ls2 ih =>
    intro _
    cases ls2 with
    | nil => rfl
    | cons l2 ls3 =>
      rw [show (l :: l2 :: ls3) ++ [[]] = l :: l2 :: (ls3 ++ [[]]) from rfl,
        joinNL_cons2, show l2 :: (ls3 ++ [[]]) = (l2 :: ls3) ++ [([] : List Char)] from rfl,
        ih (by simp), joinNL_cons2]
      simp

theorem pySplitLines_joinNL : ∀ ls : List (List Char),
    (∀ l ∈ ls, ∀ c ∈ l, isLineBreak c = false) →
    pySplitLines (joinNL ls) = ls ∨ pySplitLines (joinNL ls) ++ [[]] = ls := by
  intro ls
  induction ls with
  | nil => intro _; exact Or.inl rfl
  | cons l ls2 ih =>
    intro hbf
    cases ls2 with
    | nil =>
      rw [joinNL_one]
      by_cases hl : l = []
      · subst hl
        exact Or.inr rfl
      · exact Or.inl (pySplitLines_single l hl (hbf l (by simp)))
    | cons l2 ls3 =>
      rw [joinNL_cons2, pySplitLines_join_cons l (hbf l (by simp)) (joinNL (l2 :: ls3))]
      rcases ih (fun x hx c hc => hbf x (List.mem_cons_of_mem _ hx) c hc) with h | h
      · exact Or.inl (by rw [h])
      · exact Or.inr (by rw [List.cons_append, h])

theorem joinNL_filtered_split (p : List Char → Bool) (ls : List (List Char))
    (hbf : ∀ l ∈ ls, ∀ c ∈ l, isLineBreak c = false)
    (hp : ∀ l ∈ ls, p l = true) (hne : joinNL ls ≠ []) :
    joinNL ((pySplitLines (joinNL ls)).filter p) = joinNL ls ∨
    joinNL ls = joinNL ((pySplitLines (joinNL ls)).filter p) ++ ['\n'] := by
  rcases pySplitLines_joinNL ls hbf with hsp | hsp
  · left
    rw [hsp, List.filter_eq_self.2 hp]
  · right
    have hSne : pySplitLines (joinNL ls) ≠ [] := by
      intro hSnil
      rw [hSnil] at hsp
      exact hne (by rw [← hsp]; rfl)
    have hpS : ∀ l ∈ pySplitLines (joinNL ls), p l = true := by
      intro l hl
      have hm : l ∈ pySplitLines (joinNL ls) ++ [[]] := List.mem_append_left _ hl
      rw [hsp] at hm
      exact hp l hm
    rw [List.filter_eq_self.2 hpS]
    conv_lhs => rw [← hsp]
    exact joinNL_append_empty _ hSne

theorem stripCommentLines_again {t : String} (h : stripCommentLines t ≠ "") :
    stripCommentLines (stripCommentLines t) = stripCommentLines t ∨
    (stripCommentLines t).data =
      (stripCommentLines (stripCommentLines t)).data ++ ['\n'] := by
  have hbf : ∀ l ∈ (pySplitLines t.data).filter (fun l => !litAt ['#'] l),
      ∀ c ∈ l, isLineBreak c = false :=
    fun l hl c hc => pySplitLines_no_break t.data l (List.mem_filter.1 hl).1 c hc
  have hp : ∀ l ∈ (pySplitLines t.data).filter (fun l => !litAt ['#'] l),
      (!litAt ['#'] l) = true := fun l hl => (List.mem_filter.1 hl).2
  have hne : joinNL ((pySplitLines t.data).filter (fun l => !litAt ['#'] l)) ≠ [] := by
    intro hnil
    exact h (string_data_ext (hnil : (stripCommentLines t).data = "".data))
  rcases joinNL_filtered_split _ _ hbf hp hne with hcase | hcase
  · exact Or.inl (string_data_ext
      (hcase : (stripCommentLines (stripCommentLines t)).data = (stripCommentLines t).data))
  · exact Or.inr
      (hcase : (stripCommentLines t).data =
        (stripCommentLines (stripCommentLines t)).data ++ ['\n'])

/-! Commutation of the matching primitives with one appended character. -/

theorem litAt_true_length : ∀ {lit y : List Char}, litAt lit y = true →
    lit.length ≤ y.length := by
  intro lit
  induction lit with
  | nil => intro y _; simp
  | cons a as ih =>
    intro y h
    cases y with
    | nil => simp [litAt] at h
    | cons b bs =>
      rw [litAt, Bool.and_eq_true] at h
      simpa using Nat.succ_le_succ (ih h.2)

theorem ciAt_true_length : ∀ {lit y : List Char}, ciAt lit y = true →
    lit.length ≤ y.length := by
  intro lit
  induction lit with
  | nil => intro y _; simp
  | cons a as ih =>
    intro y h
    cases y with
    | nil => simp [ciAt] at h
    | cons b bs =>
      rw [ciAt, Bool.and_eq_true] at h
      simpa using Nat.succ_le_succ (ih h.2)

theorem litAt_append_one {c : Char} :
    ∀ (lit : List Char), lit.getLast? ≠ some c →
      ∀ y : List Char, litAt lit (y ++ [c]) = litAt lit y := by
  intro lit
  induction lit with
  | nil => intro _ y; rfl
  | cons a as ih =>
    intro h y
    cases y with
    | nil =>
      cases as with
      | nil =>
        have hne : a ≠ c := fun heq => h (by rw [heq]; simp)
        simp [litAt, hne]
      | cons a2 as2 => simp [litAt]
    | cons b bs =>
      rw [List.cons_append, litAt, litAt]
      cases as with
      | nil => rfl
      | cons a2 as2 =>
        rw [ih (fun hz => h (by rw [List.getLast?_cons_cons]; exact hz)) bs]

theorem ciAt_append_one {c : Char} :
    ∀ (lit : List Char), lit.getLast?.map lowerChar ≠ some (lowerChar c) →
      ∀ y : List Char, ciAt lit (y ++ [c]) = ciAt lit y := by
  intro lit
  induction lit with
  | nil => intro _ y; rfl
  | cons a as ih =>
    intro h y
    cases y with
    | nil =>
      cases as with
      | nil =>
        have hne : lowerChar a ≠ lowerChar c := fun heq => h (by simp [heq])
        simp [ciAt, hne]
      | cons a2 as2 => simp [ciAt]
    | cons b bs =>
      rw [List.cons_append, ciAt, ciAt]
      cases as with
      | nil => rfl
      | cons a2 as2 =>
        rw [ih (fun hz => h (by rw [List.getLast?_cons_cons]; exact hz)) bs]

theorem takeWhile_append_one {q : Char → Bool} {c : Char} (hq : q c = false) :
    ∀ y : List Char, (y ++ [c]).takeWhile q = y.takeWhile q := by
  intro y
  induction y with
  | nil => simp [List.takeWhile, hq]
  | cons b bs ih =>
    rw [List.cons_append]
    by_cases hb : q b = true
    · rw [List.takeWhile_cons_of_pos hb, List.takeWhile_cons_of_pos hb, ih]
    · rw [List.takeWhile_cons_of_neg (by simpa using hb),
        List.takeWhile_cons_of_neg (by simpa using hb)]

theorem dropWhile_append_one {q : Char → Bool} {c : Char} {y Z : List Char}
    (hZ : y.dropWhile q = Z) (hne : Z ≠ []) :
    (y ++ [c]).dropWhile q = Z ++ [c] := by
  rw [List.dropWhile_append, hZ, if_neg (by simpa using hne)]

theorem dropWhile_append_one_empty {q : Char → Bool} {c : Char} {y : List Char}
    (hZ : y.dropWhile q = []) (hc : q c = true) :
    (y ++ [c]).dropWhile q = [] := by
  rw [List.dropWhile_append, hZ]
  simp [List.dropWhile, hc]

theorem pyStripChars_append_nl (X : List Char) :
    pyStripChars (X ++ ['\n']) = pyStripChars X := by
  rw [pyStripChars, pyStripChars]
  cases hZ : X.dropWhile isPySpace with
  | nil =>
    rw [dropWhile_append_one_empty hZ (by decide)]
  | cons z zs =>
    rw [dropWhile_append_one hZ (by simp), List.reverse_append]
    have h2 : (['\n'].reverse ++ (z :: zs).reverse).dropWhile isPySpace =
        (z :: zs).reverse.dropWhile isPySpace := by
      rw [show (['\n'].reverse ++ (z :: zs).reverse : List Char) =
        '\n' :: (z :: zs).reverse from by simp, List.dropWhile_cons,
        if_pos (by decide : isPySpace '\n' = true)]
    rw [h2]

theorem pyStrip_append_nl (X : List Char) :
    (⟨pyStripChars (X ++ ['\n'])⟩ : String) = ⟨pyStripChars X⟩ := by
  rw [pyStripChars_append_nl]

theorem pySplitLines_append_nl_aux : ∀ n : Nat, ∀ X : List Char, X.length ≤ n →
    pySplitLines (X ++ ['\n']) = pySplitLines X ∨
    pySplitLines (X ++ ['\n']) = pySplitLines X ++ [[]] := by
  intro n
  induction n with
  | zero =>
    intro X hlen
    have hnil : X = [] := List.eq_nil_of_length_eq_zero (Nat.le_zero.1 hlen)
    subst hnil
    exact Or.inr (by rw [List.nil_append, pySplitLines_one, if_pos (by decide)]; rfl)
  | succ n ih =>
    intro X hlen
    match X with
    | [] =>
      exact Or.inr (by rw [List.nil_append, pySplitLines_one, if_pos (by decide)]; rfl)
    | [c] =>
      by_cases hcr : c = '\r'
      · subst hcr
        left
        rw [show ['\r'] ++ ['\n'] = '\r' :: '\n' :: [] from rfl, pySplitLines_cr_nl,
          pySplitLines_one, if_pos (by decide)]
        rfl
      · by_cases hbr : isLineBreak c = true
        · right
          rw [show [c] ++ ['\n'] = c :: '\n' :: [] from rfl,
            pySplitLines_break2 [] (fun hx => hcr hx.1) hbr,
            pySplitLines_one (c := '\n'), if_pos (by decide),
            pySplitLines_one, if_pos hbr]
          rfl
        · left
          rw [show [c] ++ ['\n'] = c :: '\n' :: [] from rfl,
            pySplitLines_char2 '\n' [] (by simpa using hbr),
            pySplitLines_one (c := '\n'), if_pos (by decide),
            pySplitLines_one, if_neg hbr]
    | c1 :: c2 :: rest =>
      have hlen2 : (c2 :: rest).length ≤ n := by
        simp only [List.length_cons] at hlen ⊢
        omega
      have hlenr : rest.length ≤ n := by
        simp only [List.length_cons] at hlen
        omega
      rw [show (c1 :: c2 :: rest) ++ ['\n'] = c1 :: c2 :: (rest ++ ['\n']) from by simp]
      by_cases hcr : c1 = '\r' ∧ c2 = '\n'
      · obtain ⟨rfl, rfl⟩ := hcr
        rw [pySplitLines_cr_nl, pySplitLines_cr_nl]
        rcases ih rest hlenr with h | h
        · exact Or.inl (by rw [h])
        · exact Or.inr (by rw [h]; rfl)
      · by_cases hbr : isLineBreak c1 = true
        · rw [pySplitLines_break2 (rest ++ ['\n']) hcr hbr,
            pySplitLines_break2 rest hcr hbr,
            show c2 :: (rest ++ ['\n']) = (c2 :: rest) ++ ['\n'] from rfl]
          rcases ih (c2 :: rest) hlen2 with h | h
          · exact Or.inl (by rw [h])
          · exact Or.inr (by rw [h]; rfl)
        · have hbr2 : isLineBreak c1 = false := by simpa using hbr
          rw [pySplitLines_char2 c2 (rest ++ ['\n']) hbr2,
            pySplitLines_char2 c2 rest hbr2,
            show c2 :: (rest ++ ['\n']) = (c2 :: rest) ++ ['\n'] from rfl]
          have hne := pySplitLines_ne_nil (c2 :: rest) (by simp)
          rcases ih (c2 :: rest) hlen2 with h | h
          · rw [h]
            exact Or.inl rfl
          · rw [h]
            cases hS : pySplitLines (c2 :: rest) with
            | nil => exact absurd hS hne
            | cons l ls => exact Or.inr rfl

theorem pySplitLines_append_nl (X : List Char) :
    pySplitLines (X ++ ['\n']) = pySplitLines X ∨
    pySplitLines (X ++ ['\n']) = pySplitLines X ++ [[]] :=
  pySplitLines_append_nl_aux X.length X le_rfl

/-! Generic commutation of the backtracking capture scanners with a trailing
newline, and the strict-shrinking bounds that drive fuel accounting. -/

theorem findSplit_append_nl {β : Type} {tail : List Char → Option β} {g : β → β}
    (htail : ∀ x, tail (x ++ ['\n']) = (tail x).map g) :
    ∀ (x acc : List Char), findSplit tail acc (x ++ ['\n']) =
      (findSplit tail acc x).map (fun ar => (ar.1, g ar.2)) := by
  intro x
  induction x with
  | nil =>
    intro acc
    have h0 := htail []
    rw [List.nil_append] at h0
    cases htail0 : tail [] with
    | some b =>
      rw [htail0] at h0
      simp [findSplit, h0, htail0]
    | none =>
      rw [htail0] at h0
      simp [findSplit, h0, htail0]
  | cons c cs2 ih =>
    intro acc
    have hc := htail (c :: cs2)
    rw [List.cons_append] at hc
    cases htc : tail (c :: cs2) with
    | some b =>
      rw [htc] at hc
      simp [findSplit, hc, htc]
    | none =>
      rw [htc] at hc
      have hih := ih (c :: acc)
      simp only [List.cons_append, List.append_eq, findSplit, hc, htc]
      exact hih
  
theorem findSplitNoNl_append_nl {β : Type} {tail : List Char → Option β} {g : β → β}
    (htail : ∀ x, tail (x ++ ['\n']) = (tail x).map g) :
    ∀ (x acc : List Char), findSplitNoNl tail acc (x ++ ['\n']) =
      (findSplitNoNl tail acc x).map (fun ar => (ar.1, g ar.2)) := by
  intro x
  induction x with
  | nil =>
    intro acc
    have h0 := htail []
    rw [List.nil_append] at h0
    cases htail0 : tail [] with
    | some b =>
      rw [htail0] at h0
      simp [findSplitNoNl, h0, htail0]
    | none =>
      rw [htail0] at h0
      simp [findSplitNoNl, h0, htail0]
  | cons c cs2 ih =>
    intro acc
    have hc := htail (c :: cs2)
    rw [List.cons_append] at hc
    cases htc : tail (c :: cs2) with
    | some b =>
      rw [htc] at hc
      simp [findSplitNoNl, hc, htc]
    | none =>
      rw [htc] at hc
      by_cases hcn : c = '\n'
      · subst hcn
        simp [findSplitNoNl, hc, htc]
      · have hih := ih (c :: acc)
        simp only [List.cons_append, List.append_eq, findSplitNoNl, hc, htc, if_neg hcn]
        exact hih

theorem findSplit_rest_lt {β : Type} {tail : List Char → Option β} (restOf : β → List Char)
    (htb : ∀ y b, tail y = some b → (restOf b).length < y.length) :
    ∀ (x acc : List Char) {a : List Char} {b : β},
      findSplit tail acc x = some (a, b) → (restOf b).length < x.length := by
  intro x
  induction x with
  | nil =>
    intro acc a b h
    cases htc : tail [] with
    | some b2 => exact absurd (htb [] b2 htc) (Nat.not_lt_zero _)
    | none =>
      rw [findSplit, htc] at h
      exact absurd (h : (none : Option (List Char × β)) = some (a, b)) (by simp)
  | cons c cs2 ih =>
    intro acc a b h
    cases htc : tail (c :: cs2) with
    | some b2 =>
      rw [findSplit, htc] at h
      have h2 : some (acc.reverse, b2) = some (a, b) := h
      simp only [Option.some.injEq, Prod.mk.injEq] at h2
      obtain ⟨-, rfl⟩ := h2
      exact htb _ _ htc
    | none =>
      rw [findSplit, htc] at h
      have h2 : findSplit tail (c :: acc) cs2 = some (a, b) := h
      have hlt := ih (c :: acc) h2
      simp only [List.length_cons]
      omega

theorem findSplitNoNl_rest_lt {β : Type} {tail : List Char → Option β}
    (restOf : β → List Char)
    (htb : ∀ y b, tail y = some b → (restOf b).length < y.length) :
    ∀ (x acc : List Char) {a : List Char} {b : β},
      findSplitNoNl tail acc x = some (a, b) → (restOf b).length < x.length := by
  intro x
  induction x with
  | nil =>
    intro acc a b h
    cases htc : tail [] with
    | some b2 => exact absurd (htb [] b2 htc) (Nat.not_lt_zero _)
    | none =>
      rw [findSplitNoNl, htc] at h
      exact absurd (h : (none : Option (List Char × β)) = some (a, b)) (by simp)
  | cons c cs2 ih =>
    intro acc a b h
    cases htc : tail (c :: cs2) with
    | some b2 =>
      rw [findSplitNoNl, htc] at h
      have h2 : some (acc.reverse, b2) = some (a, b) := h
      simp only [Option.some.injEq, Prod.mk.injEq] at h2
      obtain ⟨-, rfl⟩ := h2
      exact htb _ _ htc
    | none =>
      rw [findSplitNoNl, htc] at h
      by_cases hcn : c = '\n'
      · rw [if_pos hcn] at h
        exact absurd (h : (none : Option (List Char × β)) = some (a, b)) (by simp)
      · rw [if_neg hcn] at h
        have h2 : findSplitNoNl tail (c :: acc) cs2 = some (a, b) := h
        have hlt := ih (c :: acc) h2
        simp only [List.length_cons]
        omega

theorem splitAtNlRow_rest_le : ∀ (x acc : List Char),
    (splitAtNlRow acc x).2.length ≤ x.length := by
  intro x
  induction x with
  | nil => intro acc; simp [splitAtNlRow]
  | cons c cs ih =>
    intro acc
    rw [splitAtNlRow]
    by_cases hl : litAt "\nRow".data (c :: cs) = true
    · rw [if_pos hl]
    · rw [if_neg hl]
      exact le_trans (ih (c :: acc)) (by simp)

theorem splitAtNlRow_append_nl : ∀ (x acc : List Char),
    splitAtNlRow acc (x ++ ['\n']) =
      if (splitAtNlRow acc x).2.isEmpty then ((splitAtNlRow acc x).1 ++ ['\n'], [])
      else ((splitAtNlRow acc x).1, (splitAtNlRow acc x).2 ++ ['\n']) := by
  intro x
  induction x with
  | nil =>
    intro acc
    rw [List.nil_append, splitAtNlRow, splitAtNlRow,
      if_neg (by decide : ¬litAt "\nRow".data ['\n'] = true), splitAtNlRow]
    simp
  | cons c cs ih =>
    intro acc
    rw [List.cons_append, splitAtNlRow, splitAtNlRow]
    have hlit : litAt "\nRow".data (c :: (cs ++ ['\n'])) = litAt "\nRow".data (c :: cs) := by
      have hcomm := litAt_append_one (c := '\n') "\nRow".data (by decide) (c :: cs)
      rw [List.cons_append] at hcomm
      exact hcomm
    by_cases hl : litAt "\nRow".data (c :: cs) = true
    · rw [hlit, if_pos hl, if_pos hl]
      simp
    · rw [hlit, if_neg hl, if_neg hl]
      exact ih (c :: acc)

/-! Commutation of the rigid-tail matchers with a trailing newline, and the
strict shrinking of their remainders (the fuel argument of the finditer
drivers). -/

theorem stage_guard_append_nl {lit : List Char} (hlast : lit.getLast? ≠ some '\n')
    (cs : List Char) :
    litAt lit ((cs ++ ['\n']).dropWhile isPySpace) = litAt lit (cs.dropWhile isPySpace) := by
  cases hdw : cs.dropWhile isPySpace with
  | nil => rw [dropWhile_append_one_empty hdw (by decide)]
  | cons z zs => rw [dropWhile_append_one hdw (by simp), litAt_append_one lit hlast]

theorem stage_value_append_nl {lit : List Char} {n : Nat} (hne : lit ≠ [])
    (hn : n ≤ lit.length) (cs : List Char)
    (hg : litAt lit (cs.dropWhile isPySpace) = true) :
    ((cs ++ ['\n']).dropWhile isPySpace).drop n =
      (cs.dropWhile isPySpace).drop n ++ ['\n'] := by
  cases hdw : cs.dropWhile isPySpace with
  | nil =>
    rw [hdw] at hg
    cases lit with
    | nil => exact absurd rfl hne
    | cons a as => simp [litAt] at hg
  | cons z zs =>
    rw [hdw] at hg
    rw [dropWhile_append_one hdw (by simp)]
    exact List.drop_append_of_le_length (le_trans hn (litAt_true_length hg))

theorem stage_guard_ci_append_nl {lit : List Char}
    (hlast : lit.getLast?.map lowerChar ≠ some (lowerChar '\n')) (cs : List Char) :
    ciAt lit ((cs ++ ['\n']).dropWhile isPySpace) = ciAt lit (cs.dropWhile isPySpace) := by
  cases hdw : cs.dropWhile isPySpace with
  | nil => rw [dropWhile_append_one_empty hdw (by decide)]
  | cons z zs => rw [dropWhile_append_one hdw (by simp), ciAt_append_one lit hlast]

theorem stage_value_ci_append_nl {lit : List Char} {n : Nat} (hne : lit ≠ [])
    (hn : n ≤ lit.length) (cs : List Char)
    (hg : ciAt lit (cs.dropWhile isPySpace) = true) :
    ((cs ++ ['\n']).dropWhile isPySpace).drop n =
      (cs.dropWhile isPySpace).drop n ++ ['\n'] := by
  cases hdw : cs.dropWhile isPySpace with
  | nil =>
    rw [hdw] at hg
    cases lit with
    | nil => exact absurd rfl hne
    | cons a as => simp [ciAt] at hg
  | cons z zs =>
    rw [hdw] at hg
    rw [dropWhile_append_one hdw (by simp)]
    exact List.drop_append_of_le_length (le_trans hn (ciAt_true_length hg))

theorem commaLitDrop_append_nl (lit : List Char) (hne : lit ≠ [])
    (hlast : lit.getLast? ≠ some '\n') (n : Nat) (hn : n ≤ lit.length) :
    ∀ x, commaLitDrop lit n (x ++ ['\n']) =
      (commaLitDrop lit n x).map (fun r => r ++ ['\n']) := by
  intro x
  cases x with
  | nil => rfl
  | cons c cs =>
    rw [List.cons_append, commaLitDrop_cons, commaLitDrop_cons]
    by_cases hc : c = ','
    · rw [if_pos hc, if_pos hc, stage_guard_append_nl hlast cs]
      cases hg : litAt lit (cs.dropWhile isPySpace) with
      | false => rfl
      | true =>
        rw [if_pos rfl, if_pos rfl, stage_value_append_nl hne hn cs hg]
        rfl
    · rw [if_neg hc, if_neg hc]
      rfl

theorem commaLitDrop_some_lt {lit : List Char} {n : Nat} :
    ∀ {y r : List Char}, commaLitDrop lit n y = some r → r.length < y.length := by
  intro y r h
  match y with
  | [] => exact absurd h (by simp [commaLitDrop])
  | c :: cs =>
    rw [commaLitDrop_cons] at h
    by_cases hc : c = ','
    · rw [if_pos hc] at h
      cases hg : litAt lit (cs.dropWhile isPySpace) with
      | false =>
        rw [hg] at h
        exact absurd h (by simp)
      | true =>
        rw [hg, if_pos rfl] at h
        simp only [Option.some.injEq] at h
        subst h
        have l2 : (cs.dropWhile isPySpace).length ≤ cs.length :=
          (List.dropWhile_sublist _).length_le
        simp only [List.length_drop, List.length_cons]
        omega
    · rw [if_neg hc] at h
      exact absurd h (by simp)

theorem commaCiKeyDrop_append_nl {key : List Char} (hne : key ≠ [])
    (hlast : key.getLast?.map lowerChar ≠ some (lowerChar '\n')) :
    ∀ x, commaCiKeyDrop key (x ++ ['\n']) =
      (commaCiKeyDrop key x).map (fun r => r ++ ['\n']) := by
  intro x
  cases x with
  | nil => rfl
  | cons c cs =>
    rw [List.cons_append, commaCiKeyDrop_cons, commaCiKeyDrop_cons]
    by_cases hc : c = ','
    · rw [if_pos hc, if_pos hc, stage_guard_ci_append_nl hlast cs]
      cases hg : ciAt key (cs.dropWhile isPySpace) with
      | false => rfl
      | true =>
        rw [stage_value_ci_append_nl hne le_rfl cs hg,
          litAt_append_one ['='] (by decide)]
        cases hg2 : litAt ['='] ((cs.dropWhile isPySpace).drop key.length) with
        | false => rfl
        | true =>
          rw [List.drop_append_of_le_length (n := 1) (by exact litAt_true_length hg2)]
          rfl
    · rw [if_neg hc, if_neg hc]
      rfl

theorem commaCiKeyDrop_some_lt {key : List Char} :
    ∀ {y r : List Char}, commaCiKeyDrop key y = some r → r.length < y.length := by
  intro y r h
  match y with
  | [] => exact absurd h (by simp [commaCiKeyDrop])
  | c :: cs =>
    rw [commaCiKeyDrop_cons] at h
    by_cases hc : c = ','
    · rw [if_pos hc] at h
      by_cases hg : (ciAt key (cs.dropWhile isPySpace) &&
          litAt ['='] ((cs.dropWhile isPySpace).drop key.length)) = true
      · rw [if_pos hg] at h
        simp only [Option.some.injEq] at h
        subst h
        have l2 : (cs.dropWhile isPySpace).length ≤ cs.length :=
          (List.dropWhile_sublist _).length_le
        simp only [List.length_drop, List.length_cons]
        omega
      · rw [if_neg hg] at h
        exact absurd h (by simp)
    · rw [if_neg hc] at h
      exact absurd h (by simp)

theorem smsTailMatch_append_nl : ∀ x : List Char,
    smsTailMatch (x ++ ['\n']) =
      (smsTailMatch x).map (fun dr => (dr.1, dr.2 ++ ['\n'])) := by
  intro x
  have h1 := commaLitDrop_append_nl "date=".data (by decide) (by decide)
    5 (by decide) x
  cases hd : commaLitDrop "date=".data 5 x with
  | none =>
    rw [hd] at h1
    simp only [smsTailMatch, h1, hd]
    rfl
  | some cs3 =>
    rw [hd] at h1
    simp only [smsTailMatch, h1, hd, Option.map_some']
    rw [takeWhile_append_one (q := Char.isDigit) (c := '\n') (by decide) cs3]
    cases hde : (cs3.takeWhile Char.isDigit).isEmpty with
    | true => rfl
    | false =>
      rw [List.drop_append_of_le_length ((List.takeWhile_sublist _).length_le),
        commaLitDrop_append_nl "body=".data (by decide) (by decide)
          5 (by decide)]
      cases commaLitDrop "body=".data 5
          (cs3.drop (cs3.takeWhile Char.isDigit).length) <;> rfl

theorem smsTailMatch_rest_lt : ∀ (y : List Char) (b : List Char × List Char),
    smsTailMatch y = some b → b.2.length < y.length := by
  intro y b h
  cases hd : commaLitDrop "date=".data 5 y with
  | none =>
    simp only [smsTailMatch, hd] at h
    exact absurd h (by simp)
  | some cs3 =>
    simp only [smsTailMatch, hd] at h
    by_cases hde : (!(cs3.takeWhile Char.isDigit).isEmpty) = true
    · rw [if_pos hde] at h
      cases hb : commaLitDrop "body=".data 5
          (cs3.drop (cs3.takeWhile Char.isDigit).length) with
      | none =>
        rw [hb] at h
        exact absurd h (by simp)
      | some r =>
        rw [hb, Option.map_some'] at h
        simp only [Option.some.injEq] at h
        have hlt1 := commaLitDrop_some_lt hb
        have hlt2 := commaLitDrop_some_lt hd
        rw [← h]
        show r.length < y.length
        simp only [List.length_drop] at hlt1
        omega
    · rw [if_neg hde] at h
      exact absurd h (by simp)

theorem callsTail2_append_nl {k3 k4 : List Char} (h3 : k3 ≠ [])
    (h3l : k3.getLast?.map lowerChar ≠ some (lowerChar '\n'))
    (h4 : k4 ≠ []) (h4l : k4.getLast?.map lowerChar ≠ some (lowerChar '\n')) :
    ∀ x : List Char, callsTail2 k3 k4 (x ++ ['\n']) =
      (callsTail2 k3 k4 x).map (fun d => (d.1, d.2.1, d.2.2 ++ ['\n'])) := by
  intro x
  have hc3 := commaCiKeyDrop_append_nl h3 h3l x
  cases hd : commaCiKeyDrop k3 x with
  | none =>
    rw [hd] at hc3
    simp only [callsTail2, hc3, hd]
    rfl
  | some cs3 =>
    rw [hd] at hc3
    simp only [callsTail2, hc3, hd, Option.map_some']
    rw [takeWhile_append_one (q := Char.isDigit) (c := '\n') (by decide) cs3]
    cases hde : (cs3.takeWhile Char.isDigit).isEmpty with
    | true => rfl
    | false =>
      rw [List.drop_append_of_le_length ((List.takeWhile_sublist _).length_le),
        commaCiKeyDrop_append_nl h4 h4l]
      cases hb : commaCiKeyDrop k4 (cs3.drop (cs3.takeWhile Char.isDigit).length) with
      | none => rfl
      | some cs6 =>
        simp only [Option.map_some']
        rw [takeWhile_append_one (q := Char.isDigit) (c := '\n') (by decide) cs6]
        cases hde2 : (cs6.takeWhile Char.isDigit).isEmpty with
        | true => rfl
        | false =>
          rw [List.drop_append_of_le_length ((List.takeWhile_sublist _).length_le)]
          rfl

theorem callsTail2_rest_lt {k3 k4 : List Char} :
    ∀ (y : List Char) (b : List Char × List Char × List Char),
      callsTail2 k3 k4 y = some b → b.2.2.length < y.length := by
  intro y b h
  cases hd : commaCiKeyDrop k3 y with
  | none =>
    simp only [callsTail2, hd] at h
    exact absurd h (by simp)
  | some cs3 =>
    simp only [callsTail2, hd] at h
    by_cases hde : (!(cs3.takeWhile Char.isDigit).isEmpty) = true
    · rw [if_pos hde] at h
      cases hb : commaCiKeyDrop k4 (cs3.drop (cs3.takeWhile Char.isDigit).length) with
      | none =>
        rw [hb] at h
        exact absurd h (by simp)
      | some cs6 =>
        rw [hb] at h
        have h2 : (if (!(cs6.takeWhile Char.isDigit).isEmpty) = true then
            some (cs3.takeWhile Char.isDigit, cs6.takeWhile Char.isDigit,
              cs6.drop (cs6.takeWhile Char.isDigit).length)
          else none) = some b := h
        by_cases hde2 : (!(cs6.takeWhile Char.isDigit).isEmpty) = true
        · rw [if_pos hde2] at h2
          simp only [Option.some.injEq] at h2
          have hlt1 := commaCiKeyDrop_some_lt hb
          have hlt2 := commaCiKeyDrop_some_lt hd
          rw [← h2]
          show (cs6.drop (cs6.takeWhile Char.isDigit).length).length < y.length
          simp only [List.length_drop] at hlt1 ⊢
          omega
        · rw [if_neg hde2] at h2
          exact absurd h2 (by simp)
    · rw [if_neg hde] at h
      exact absurd h (by simp)

theorem callsNameTail_append_nl {k2 k3 k4 : List Char} (h2 : k2 ≠ [])
    (h2l : k2.getLast?.map lowerChar ≠ some (lowerChar '\n'))
    (h3 : k3 ≠ []) (h3l : k3.getLast?.map lowerChar ≠ some (lowerChar '\n'))
    (h4 : k4 ≠ []) (h4l : k4.getLast?.map lowerChar ≠ some (lowerChar '\n')) :
    ∀ x : List Char, callsNameTail k2 k3 k4 (x ++ ['\n']) =
      (callsNameTail k2 k3 k4 x).map
        (fun d => (d.1, d.2.1, d.2.2.1, d.2.2.2 ++ ['\n'])) := by
  intro x
  have hc2 := commaCiKeyDrop_append_nl h2 h2l x
  cases hd : commaCiKeyDrop k2 x with
  | none =>
    rw [hd] at hc2
    simp only [callsNameTail, hc2, hd]
    rfl
  | some afterEq =>
    rw [hd] at hc2
    simp only [callsNameTail, hc2, hd, Option.map_some']
    rw [findSplitNoNl_append_nl (callsTail2_append_nl h3 h3l h4 h4l) afterEq []]
    cases findSplitNoNl (callsTail2 k3 k4) [] afterEq with
    | none => rfl
    | some nb =>
      obtain ⟨num, d1, d2, r⟩ := nb
      rfl

theorem callsNameTail_rest_lt {k2 k3 k4 : List Char} :
    ∀ (y : List Char) (b : List Char × List Char × List Char × List Char),
      callsNameTail k2 k3 k4 y = some b → b.2.2.2.length < y.length := by
  intro y b h
  cases hd : commaCiKeyDrop k2 y with
  | none =>
    simp only [callsNameTail, hd] at h
    exact absurd h (by simp)
  | some afterEq =>
    simp only [callsNameTail, hd] at h
    cases hf : findSplitNoNl (callsTail2 k3 k4) [] afterEq with
    | none =>
      rw [hf] at h
      exact absurd h (by simp)
    | some nb =>
      obtain ⟨num, d1, d2, r⟩ := nb
      rw [hf] at h
      have h2 : some (num, d1, d2, r) = some b := h
      simp only [Option.some.injEq] at h2
      have hlt1 : r.length < afterEq.length :=
        findSplitNoNl_rest_lt (fun d => d.2.2)
          (fun y2 b2 hb2 => callsTail2_rest_lt y2 b2 hb2) afterEq [] hf
      have hlt2 := commaCiKeyDrop_some_lt hd
      rw [← h2]
      show r.length < y.length
      omega

theorem callsKeyAt_append_nl {keys : List (List Char)}
    (hk : ∀ k ∈ keys, k ≠ [] ∧ k.getLast?.map lowerChar ≠ some (lowerChar '\n')) :
    ∀ cs, callsKeyAt keys (cs ++ ['\n']) =
      (callsKeyAt keys cs).map (fun r => r ++ ['\n']) := by
  induction keys with
  | nil => intro cs; rfl
  | cons k ks ih =>
    intro cs
    obtain ⟨hne, hlast⟩ := hk k (by simp)
    simp only [callsKeyAt]
    rw [ciAt_append_one k hlast cs]
    cases hg : ciAt k cs with
    | false =>
      rw [if_neg (by simp), if_neg (by simp)]
      exact ih (fun x hx => hk x (List.mem_cons_of_mem _ hx)) cs
    | true =>
      rw [List.drop_append_of_le_length (ciAt_true_length hg),
        litAt_append_one ['='] (by decide)]
      cases hg2 : litAt ['='] (cs.drop k.length) with
      | false =>
        rw [if_neg (by simp), if_neg (by simp)]
        exact ih (fun x hx => hk x (List.mem_cons_of_mem _ hx)) cs
      | true =>
        rw [List.drop_append_of_le_length (n := 1) (by exact litAt_true_length hg2)]
        rfl

theorem callsKeyAt_some_lt {keys : List (List Char)} (hk : ∀ k ∈ keys, k ≠ []) :
    ∀ {cs r : List Char}, callsKeyAt keys cs = some r → r.length < cs.length := by
  induction keys with
  | nil => intro cs r h; exact absurd h (by simp [callsKeyAt])
  | cons k ks ih =>
    intro cs r h
    simp only [callsKeyAt] at h
    by_cases hg : (ciAt k cs && litAt ['='] (cs.drop k.length)) = true
    · rw [if_pos hg] at h
      simp only [Option.some.injEq] at h
      subst h
      rw [Bool.and_eq_true] at hg
      have hk1 : 1 ≤ k.length := by
        cases k with
        | nil => exact absurd rfl (hk [] (by simp))
        | cons a as => simp
      have hlen := ciAt_true_length hg.1
      simp only [List.length_drop]
      omega
    · rw [if_neg hg] at h
      exact ih (fun x hx => hk x (List.mem_cons_of_mem _ hx)) h

/-! Invariance of the finditer scanners under one trailing newline. -/

theorem splitAtNlRow_append_nl_1 (x acc : List Char) :
    (splitAtNlRow acc (x ++ ['\n'])).1 =
      if (splitAtNlRow acc x).2.isEmpty then (splitAtNlRow acc x).1 ++ ['\n']
      else (splitAtNlRow acc x).1 := by
  rw [splitAtNlRow_append_nl x acc]
  by_cases h : (splitAtNlRow acc x).2.isEmpty = true
  · rw [if_pos h, if_pos h]
  · rw [if_neg h, if_neg h]

theorem splitAtNlRow_append_nl_2 (x acc : List Char) :
    (splitAtNlRow acc (x ++ ['\n'])).2 =
      if (splitAtNlRow acc x).2.isEmpty then ([] : List Char)
      else (splitAtNlRow acc x).2 ++ ['\n'] := by
  rw [splitAtNlRow_append_nl x acc]
  by_cases h : (splitAtNlRow acc x).2.isEmpty = true
  · rw [if_pos h, if_pos h]
  · rw [if_neg h, if_neg h]

theorem smsScan1_nil (fmt : Int → String) : ∀ n : Nat, smsScan1 fmt n [] = [] := by
  intro n
  cases n <;> rfl

theorem smsScan1_single_nl (fmt : Int → String) : ∀ m : Nat, smsScan1 fmt m ['\n'] = [] := by
  intro m
  cases m with
  | zero => rfl
  | succ m2 =>
    rw [smsScan1, if_neg (by decide : ¬litAt "address=".data ['\n'] = true)]
    · show smsScan1 fmt m2 [] = []
      exact smsScan1_nil fmt m2
    · simp

theorem smsScan1_append_nl (fmt : Int → String) : ∀ k : Nat, ∀ cs : List Char,
    cs.length ≤ k → ∀ m n : Nat, cs.length + 1 < m → cs.length < n →
    smsScan1 fmt m (cs ++ ['\n']) = smsScan1 fmt n cs := by
  intro k
  induction k with
  | zero =>
    intro cs hlen m n hm hn
    have hnil : cs = [] := List.eq_nil_of_length_eq_zero (Nat.le_zero.1 hlen)
    subst hnil
    rw [List.nil_append, smsScan1_single_nl, smsScan1_nil]
  | succ k ih =>
    intro cs hlen m n hm hn
    cases cs with
    | nil => rw [List.nil_append, smsScan1_single_nl, smsScan1_nil]
    | cons c cs2 =>
      simp only [List.length_cons] at hlen hm hn
      cases m with
      | zero => omega
      | succ m2 =>
      cases n with
      | zero => omega
      | succ n2 =>
      have hm2 : cs2.length + 2 < m2 + 1 := hm
      have hn2 : cs2.length + 1 < n2 + 1 := hn
      have hlit : litAt "address=".data (c :: (cs2 ++ ['\n'])) =
          litAt "address=".data (c :: cs2) := by
        have h := litAt_append_one (c := '\n') "address=".data (by decide) (c :: cs2)
        rw [List.cons_append] at h
        exact h
      rw [show (c :: cs2) ++ ['\n'] = c :: (cs2 ++ ['\n']) from rfl]
      rw [smsScan1]
      · rw [smsScan1]
        · rw [hlit]
          cases hlitv : litAt "address=".data (c :: cs2) with
          | false =>
            show smsScan1 fmt m2 (cs2 ++ ['\n']) = smsScan1 fmt n2 cs2
            exact ih cs2 (by omega) m2 n2 (by omega) (by omega)
          | true =>
            rw [if_pos rfl, if_pos rfl]
            have hdrop8 : (c :: (cs2 ++ ['\n'])).drop 8 = (c :: cs2).drop 8 ++ ['\n'] := by
              rw [show c :: (cs2 ++ ['\n']) = (c :: cs2) ++ ['\n'] from rfl]
              exact List.drop_append_of_le_length (n := 8)
                (by exact litAt_true_length hlitv)
            rw [hdrop8, findSplit_append_nl smsTailMatch_append_nl ((c :: cs2).drop 8) []]
            cases hfs : findSplit smsTailMatch [] ((c :: cs2).drop 8) with
            | none =>
              show smsScan1 fmt m2 (cs2 ++ ['\n']) = smsScan1 fmt n2 cs2
              exact ih cs2 (by omega) m2 n2 (by omega) (by omega)
            | some adr =>
              obtain ⟨addr, ds, rest⟩ := adr
              simp only [Option.map_some']
              have hrlt : rest.length < ((c :: cs2).drop 8).length :=
                findSplit_rest_lt (fun dr => dr.2)
                  (fun y2 b2 hb2 => smsTailMatch_rest_lt y2 b2 hb2) _ [] hfs
              have hylt : (splitAtNlRow [] rest).2.length ≤ rest.length :=
                splitAtNlRow_rest_le rest []
              have hcs : ((c :: cs2).drop 8).length ≤ cs2.length + 1 := by
                simp only [List.length_drop, List.length_cons]
                omega
              rw [splitAtNlRow_append_nl_1 rest [], splitAtNlRow_append_nl_2 rest []]
              by_cases hrest2 : (splitAtNlRow [] rest).2.isEmpty = true
              · rw [if_pos hrest2, if_pos hrest2, pyStripChars_append_nl]
                have hr0 : (splitAtNlRow [] rest).2 = [] := by simpa using hrest2
                rw [hr0, smsScan1_nil, smsScan1_nil]
              · rw [if_neg hrest2, if_neg hrest2]
                rw [ih (splitAtNlRow [] rest).2 (by omega) m2 n2 (by omega) (by omega)]
        · simp
      · simp

theorem callsKeyAt_single_nl {keys : List (List Char)} (hk : ∀ k ∈ keys, k ≠ []) :
    callsKeyAt keys ['\n'] = none := by
  induction keys with
  | nil => rfl
  | cons k ks ih =>
    simp only [callsKeyAt]
    have hlf : litAt ['='] ((['\n'] : List Char).drop k.length) = false := by
      cases k with
      | nil => exact absurd rfl (hk [] (by simp))
      | cons a as =>
        have hd : (['\n'] : List Char).drop (a :: as).length = [] := by
          simp only [List.length_cons]
          show List.drop as.length [] = []
          exact List.drop_nil
        rw [hd]
        rfl
    rw [hlf]
    simp only [Bool.and_false, Bool.false_eq_true, if_false]
    exact ih (fun x hx => hk x (List.mem_cons_of_mem _ hx))

theorem callsScanP_nil (fmt : Int → String) (keys1 : List (List Char))
    (k2 k3 k4 : List Char) : ∀ n : Nat, callsScanP fmt keys1 k2 k3 k4 n [] = [] := by
  intro n
  cases n <;> rfl

theorem callsScanP_single_nl (fmt : Int → String) {keys1 : List (List Char)}
    (k2 k3 k4 : List Char) (hk : ∀ k ∈ keys1, k ≠ []) :
    ∀ m : Nat, callsScanP fmt keys1 k2 k3 k4 m ['\n'] = [] := by
  intro m
  cases m with
  | zero => rfl
  | succ m2 =>
    rw [callsScanP, callsKeyAt_single_nl hk]
    · show callsScanP fmt keys1 k2 k3 k4 m2 [] = []
      exact callsScanP_nil fmt keys1 k2 k3 k4 m2
    · simp

theorem callsScanP_append_nl (fmt : Int → String) (keys1 : List (List Char))
    (k2 k3 k4 : List Char)
    (hk1 : ∀ k ∈ keys1, k ≠ [] ∧ k.getLast?.map lowerChar ≠ some (lowerChar '\n'))
    (h2 : k2 ≠ []) (h2l : k2.getLast?.map lowerChar ≠ some (lowerChar '\n'))
    (h3 : k3 ≠ []) (h3l : k3.getLast?.map lowerChar ≠ some (lowerChar '\n'))
    (h4 : k4 ≠ []) (h4l : k4.getLast?.map lowerChar ≠ some (lowerChar '\n')) :
    ∀ k : Nat, ∀ cs : List Char, cs.length ≤ k → ∀ m n : Nat,
      cs.length + 1 < m → cs.length < n →
      callsScanP fmt keys1 k2 k3 k4 m (cs ++ ['\n']) =
        callsScanP fmt keys1 k2 k3 k4 n cs := by
  intro k
  induction k with
  | zero =>
    intro cs hlen m n hm hn
    have hnil : cs = [] := List.eq_nil_of_length_eq_zero (Nat.le_zero.1 hlen)
    subst hnil
    rw [List.nil_append, callsScanP_single_nl fmt k2 k3 k4 (fun x hx => (hk1 x hx).1),
      callsScanP_nil]
  | succ k ih =>
    intro cs hlen m n hm hn
    cases cs with
    | nil =>
      rw [List.nil_append, callsScanP_single_nl fmt k2 k3 k4 (fun x hx => (hk1 x hx).1),
        callsScanP_nil]
    | cons c cs2 =>
      simp only [List.length_cons] at hlen hm hn
      cases m with
      | zero => omega
      | succ m2 =>
      cases n with
      | zero => omega
      | succ n2 =>
      have hka : callsKeyAt keys1 (c :: (cs2 ++ ['\n'])) =
          (callsKeyAt keys1 (c :: cs2)).map (fun r => r ++ ['\n']) := by
        have h := callsKeyAt_append_nl hk1 (c :: cs2)
        rw [List.cons_append] at h
        exact h
      rw [show (c :: cs2) ++ ['\n'] = c :: (cs2 ++ ['\n']) from rfl, callsScanP]
      · rw [callsScanP]
        · rw [hka]
          cases hkv : callsKeyAt keys1 (c :: cs2) with
          | none =>
            show callsScanP fmt keys1 k2 k3 k4 m2 (cs2 ++ ['\n']) =
              callsScanP fmt keys1 k2 k3 k4 n2 cs2
            exact ih cs2 (by omega) m2 n2 (by omega) (by omega)
          | some afterK1 =>
            simp only [Option.map_some']
            rw [findSplitNoNl_append_nl (callsNameTail_append_nl h2 h2l h3 h3l h4 h4l)
              afterK1 []]
            cases hfs : findSplitNoNl (callsNameTail k2 k3 k4) [] afterK1 with
            | none =>
              show callsScanP fmt keys1 k2 k3 k4 m2 (cs2 ++ ['\n']) =
                callsScanP fmt keys1 k2 k3 k4 n2 cs2
              exact ih cs2 (by omega) m2 n2 (by omega) (by omega)
            | some nb =>
              obtain ⟨nameRaw, num, d1, d2, rest⟩ := nb
              simp only [Option.map_some']
              have hklt : afterK1.length < (c :: cs2).length :=
                callsKeyAt_some_lt (fun x hx => (hk1 x hx).1) hkv
              have hrlt : rest.length < afterK1.length :=
                findSplitNoNl_rest_lt (fun d => d.2.2.2)
                  (fun y2 b2 hb2 => callsNameTail_rest_lt y2 b2 hb2) afterK1 [] hfs
              simp only [List.length_cons] at hklt
              rw [ih rest (by omega) m2 n2 (by omega) (by omega)]
        · simp
      · simp

/-! Invariance of the full strategy cascades under one trailing newline. -/

theorem linesConcat_append {α : Type} (f : List Char → List α) :
    ∀ (a b : List (List Char)), linesConcat f (a ++ b) = linesConcat f a ++ linesConcat f b := by
  intro a b
  induction a with
  | nil => rfl
  | cons l ls ih =>
    rw [List.cons_append, linesConcat, linesConcat, ih, List.append_assoc]

theorem smsStrat3_append_empty (fmt : Int → String) (L : List (List Char)) :
    smsStrat3 fmt (L ++ [[]]) = smsStrat3 fmt L := by
  simp only [smsStrat3]
  rw [linesConcat_append, linesConcat_append, linesConcat_append,
    show linesConcat
      (smsPatLine fmt "phone_number=".data "date=".data "message=".data commaStop) [[]] =
      [] from rfl,
    show linesConcat
      (smsPatLine fmt "sender=".data "timestamp=".data "text=".data commaStop) [[]] =
      [] from rfl,
    show linesConcat
      (smsPatLine fmt "number=".data "date_sent=".data "body=".data commaStop) [[]] =
      [] from rfl,
    List.append_nil, List.append_nil, List.append_nil]

theorem smsCore_append_nl (fmt : Int → String) (X : List Char) :
    smsCore fmt (X ++ ['\n']) = smsCore fmt X := by
  simp only [smsCore]
  rw [show (X ++ ['\n']).length + 1 = X.length + 2 from by simp,
    smsScan1_append_nl fmt X.length X le_rfl (X.length + 2) (X.length + 1)
      (by omega) (by omega)]
  rcases pySplitLines_append_nl X with hL | hL
  · rw [hL]
  · rw [hL, linesConcat_append, linesConcat_append,
      show linesConcat (smsStrat2Line fmt) [[]] = [] from rfl,
      show linesConcat (smsStrat4Line fmt) [[]] = [] from rfl,
      List.append_nil, List.append_nil, smsStrat3_append_empty]

theorem callsCore_append_nl (fmt : Int → String) (X : List Char) :
    callsCore fmt (X ++ ['\n']) = callsCore fmt X := by
  simp only [callsCore]
  rw [show (X ++ ['\n']).length + 1 = X.length + 2 from by simp,
    callsScanP_append_nl fmt ["name".data, "cached_name".data]
      "number".data "duration".data "date".data
      (by decide) (by decide) (by decide) (by decide) (by decide) (by decide) (by decide)
      X.length X le_rfl (X.length + 2) (X.length + 1) (by omega) (by omega),
    callsScanP_append_nl fmt ["caller_name".data]
      "phone_number".data "call_duration".data "timestamp".data
      (by decide) (by decide) (by decide) (by decide) (by decide) (by decide) (by decide)
      X.length X le_rfl (X.length + 2) (X.length + 1) (by omega) (by omega),
    callsScanP_append_nl fmt ["contact".data]
      "number".data "duration".data "time".data
      (by decide) (by decide) (by decide) (by decide) (by decide) (by decide) (by decide)
      X.length X le_rfl (X.length + 2) (X.length + 1) (by omega) (by omega)]
  rcases pySplitLines_append_nl X with hL | hL
  · rw [hL]
  · rw [hL, linesConcat_append, linesConcat_append,
      show linesConcat (callsStrat2Line fmt) [[]] = [] from rfl,
      show linesConcat (callsStrat4Line fmt) [[]] = [] from rfl,
      List.append_nil, List.append_nil]

theorem parse_sms_comment_strip (fmt : Int → String) (t : String) :
    parse_sms_text fmt t = parse_sms_text fmt (stripCommentLines t) := by
  by_cases h0 : t = ""
  · subst h0
    rfl
  · by_cases hA : stripCommentLines t = ""
    · simp only [parse_sms_text]
      rw [if_neg h0, hA, if_pos rfl, if_pos (by decide : pyStrip "" = "")]
    · rcases stripCommentLines_again hA with hB | hB
      · simp only [parse_sms_text]
        rw [if_neg h0, if_neg hA, hB]
      · simp only [parse_sms_text]
        rw [if_neg h0, if_neg hA]
        have hstrip : pyStrip (stripCommentLines t) =
            pyStrip (stripCommentLines (stripCommentLines t)) := by
          show (⟨pyStripChars (stripCommentLines t).data⟩ : String) =
            ⟨pyStripChars (stripCommentLines (stripCommentLines t)).data⟩
          rw [hB, pyStripChars_append_nl]
        have hcore : smsCore fmt (stripCommentLines t).data =
            smsCore fmt (stripCommentLines (stripCommentLines t)).data := by
          rw [hB, smsCore_append_nl]
        rw [hstrip, hcore]

theorem parse_calls_comment_strip (fmt : Int → String) (t : String) :
    parse_calls_text fmt t = parse_calls_text fmt (stripCommentLines t) := by
  by_cases h0 : t = ""
  · subst h0
    rfl
  · by_cases hA : stripCommentLines t = ""
    · simp only [parse_calls_text]
      rw [if_neg h0, hA, if_pos rfl, if_pos (by decide : pyStrip "" = "")]
    · rcases stripCommentLines_again hA with hB | hB
      · simp only [parse_calls_text]
        rw [if_neg h0, if_neg hA, hB]
      · simp only [parse_calls_text]
        rw [if_neg h0, if_neg hA]
        have hstrip : pyStrip (stripCommentLines t) =
            pyStrip (stripCommentLines (stripCommentLines t)) := by
          show (⟨pyStripChars (stripCommentLines t).data⟩ : String) =
            ⟨pyStripChars (stripCommentLines (stripCommentLines t)).data⟩
          rw [hB, pyStripChars_append_nl]
        have hcore : callsCore fmt (stripCommentLines t).data =
            callsCore fmt (stripCommentLines (stripCommentLines t)).data := by
          rw [hB, callsCore_append_nl]
        rw [hstrip, hcore]

/-- Claim C5 (amended): the SMS and call parsers strip '#'-led comment lines
before parsing, so their output on any input equals their output on the input
with all '#'-prefixed lines removed; the contacts parser performs no such
stripping (see the counterexample). -/
theorem claim_C5_comment_stripping :
    (∀ (fmt : Int → String) (t : String),
      parse_sms_text fmt t = parse_sms_text fmt (stripCommentLines t)) ∧
    (∀ (fmt : Int → String) (t : String),
      parse_calls_text fmt t = parse_calls_text fmt (stripCommentLines t)) :=
  ⟨parse_sms_comment_strip, parse_calls_comment_strip⟩

/-- Claim C5 counterexample: parse_contacts_text extracts a record from a
line that begins with the comment marker '#', whereas on the comment-stripped
input (which is empty) it returns nothing — so the contacts parser does not
operate on the comment-stripped remainder. -/
theorem claim_C5_counterexample :
    parse_contacts_text "# Row: 0 display_name=Alice, data1=123" =
      [⟨"Alice", "123"⟩] ∧
    stripCommentLines "# Row: 0 display_name=Alice, data1=123" = "" ∧
    parse_contacts_text "" = [] :=
  ⟨rfl, rfl, rfl⟩

end Mobilytix
